import Mathlib

/-!
# Treasure Hunt Framework — verification of spec claims

Shallow embedding, in Lean 4, of the parts of the Treasure Hunt (TH)
C++ framework that the specification claims talk about, together with
proofs or refutations of those claims.

Modelling conventions:
* C++ `double` arithmetic is modelled over `ℚ` (exact arithmetic);
  genuinely external quantities (the `/dev/urandom`-backed random
  stream, the user-supplied fitness policy, boost's Beta quantile,
  `log`/`log10`) are universally-quantified oracle parameters.
* C++ `int` counters are modelled as `ℤ` where they are compared with
  signs, or as `ℕ` where the source keeps them non-negative.
* Functions that throw C++ exceptions return `Except String _`.
* Unbounded `while` loops are modelled with an explicit fuel
  parameter; the theorems quantify over all fuels, which covers every
  finite prefix of the C++ execution.
-/

deriving instance DecidableEq for Except

namespace TreasureHunt

/-! ## IterationData (src/TH/IterationData.h)

`IterationData` stores the per-iteration counters and the three budget
caps.  Counters are ints kept non-negative by the engine; caps are
non-negative configuration values. -/

structure IterationData where
  currTime : ℕ
  currIteration : ℕ
  currNumberEvaluation : ℕ
  maxTimeSeconds : ℕ
  maxNumberEvaluations : ℕ
  maxIterations : ℕ
  deriving Repr, DecidableEq

/-- `IterationData::percentageRuntime` (IterationData.h lines 185-199),
translated clause by clause: `perc` starts at 0, is replaced by
`currNumberEvaluation / maxNumberEvaluations` when that cap is positive,
and is then raised to `currIteration / maxIterations` and to
`currTime / maxTimeSeconds` whenever the respective cap is positive and
the ratio is larger than the current `perc`. -/
def IterationData.percentageRuntime (d : IterationData) : ℚ :=
  let perc : ℚ :=
    if 0 < d.maxNumberEvaluations then
      (d.currNumberEvaluation : ℚ) / (d.maxNumberEvaluations : ℚ)
    else 0
  let perc : ℚ :=
    if 0 < d.maxIterations then
      let perc2 : ℚ := (d.currIteration : ℚ) / (d.maxIterations : ℚ)
      if perc2 > perc then perc2 else perc
    else perc
  let perc : ℚ :=
    if 0 < d.maxTimeSeconds then
      let perc2 : ℚ := (d.currTime : ℚ) / (d.maxTimeSeconds : ℚ)
      if perc2 > perc then perc2 else perc
    else perc
  perc

/-- The ratio contributed by one budget: `used/max` when the cap is
positive, `0` otherwise (a zero cap is ignored). -/
def budgetRatio (used max : ℕ) : ℚ :=
  if 0 < max then (used : ℚ) / (max : ℚ) else 0

lemma budgetRatio_nonneg (used max : ℕ) : 0 ≤ budgetRatio used max := by
  unfold budgetRatio
  split
  · exact div_nonneg (Nat.cast_nonneg _) (Nat.cast_nonneg _)
  · exact le_refl 0

lemma budgetRatio_le_one {used max : ℕ} (h : 0 < max → used ≤ max) :
    budgetRatio used max ≤ 1 := by
  unfold budgetRatio
  split
  · next hpos =>
    rw [div_le_one (by exact_mod_cast hpos)]
    exact_mod_cast h hpos
  · exact zero_le_one

lemma budgetRatio_mono {u u' m : ℕ} (h : u ≤ u') :
    budgetRatio u m ≤ budgetRatio u' m := by
  unfold budgetRatio
  split
  · next hpos =>
    exact (div_le_div_iff_of_pos_right (by exact_mod_cast hpos)).mpr (by exact_mod_cast h)
  · exact le_refl 0

lemma if_gt_eq_max (p q : ℚ) : (if q > p then q else p) = max p q := by
  by_cases h : q > p
  · simp [h, max_eq_right (le_of_lt h)]
  · simp [h, max_eq_left (not_lt.mp h)]

/-- One accumulation step of `percentageRuntime`: raise `perc` to the
budget's ratio when the cap is positive and the ratio is larger. -/
lemma percStep_eq_max {perc : ℚ} (hperc : 0 ≤ perc) (used max' : ℕ) :
    (if 0 < max' then
        (if ((used : ℚ) / (max' : ℚ)) > perc then ((used : ℚ) / (max' : ℚ)) else perc)
      else perc) = max perc (budgetRatio used max') := by
  unfold budgetRatio
  by_cases h : 0 < max'
  · simp only [h, if_true, if_gt_eq_max]
  · simp only [h, if_false, max_eq_left hperc]

/-- `percentageRuntime` computes the maximum of the three budget
ratios (zero caps contributing 0). -/
lemma percentageRuntime_eq_max (d : IterationData) :
    d.percentageRuntime =
      max (max (budgetRatio d.currNumberEvaluation d.maxNumberEvaluations)
               (budgetRatio d.currIteration d.maxIterations))
          (budgetRatio d.currTime d.maxTimeSeconds) := by
  have h1 : 0 ≤ budgetRatio d.currNumberEvaluation d.maxNumberEvaluations :=
    budgetRatio_nonneg _ _
  have h2 : 0 ≤ max (budgetRatio d.currNumberEvaluation d.maxNumberEvaluations)
      (budgetRatio d.currIteration d.maxIterations) :=
    le_trans h1 (le_max_left _ _)
  have e1 : (if 0 < d.maxNumberEvaluations then
        (d.currNumberEvaluation : ℚ) / (d.maxNumberEvaluations : ℚ) else (0 : ℚ))
      = budgetRatio d.currNumberEvaluation d.maxNumberEvaluations := rfl
  simp only [IterationData.percentageRuntime]
  rw [e1, percStep_eq_max h1, percStep_eq_max h2]

/-- C5 (counterexample).  The claim asserts `percentageRuntime() ∈ [0, 1]`
for EVERY state with non-negative counters and at least one positive cap.
It fails: with `maxNumberEvaluations = 1` (the only configured cap) and
`currNumberEvaluation = 2` — a state the engine can reach, since the
counter is only compared against the cap between iterations — the
method returns `2 > 1`.  The source never clamps the ratio. -/
theorem percentageRuntime_can_exceed_one :
    (IterationData.percentageRuntime
      { currTime := 0, currIteration := 0, currNumberEvaluation := 2,
        maxTimeSeconds := 0, maxNumberEvaluations := 1, maxIterations := 0 }) = 2 ∧
    ¬ (IterationData.percentageRuntime
      { currTime := 0, currIteration := 0, currNumberEvaluation := 2,
        maxTimeSeconds := 0, maxNumberEvaluations := 1, maxIterations := 0 }) ≤ 1 := by
  constructor
  · norm_num [IterationData.percentageRuntime]
  · norm_num [IterationData.percentageRuntime]

/-- C5 (amended).  `percentageRuntime()` is the maximum over the
configured budgets of used/max (caps equal to 0 are ignored); it is
always non-negative, it lies in `[0, 1]` provided every counter whose
cap is configured has not yet exceeded that cap, and it is monotone
non-decreasing across the iterations of one run (the caps stay fixed
while every counter is non-decreasing). -/
theorem percentageRuntime_bounds_and_monotone (d d' : IterationData)
    (hNE : 0 < d.maxNumberEvaluations → d.currNumberEvaluation ≤ d.maxNumberEvaluations)
    (hIt : 0 < d.maxIterations → d.currIteration ≤ d.maxIterations)
    (hTm : 0 < d.maxTimeSeconds → d.currTime ≤ d.maxTimeSeconds)
    (hcap1 : d'.maxNumberEvaluations = d.maxNumberEvaluations)
    (hcap2 : d'.maxIterations = d.maxIterations)
    (hcap3 : d'.maxTimeSeconds = d.maxTimeSeconds)
    (hc1 : d.currNumberEvaluation ≤ d'.currNumberEvaluation)
    (hc2 : d.currIteration ≤ d'.currIteration)
    (hc3 : d.currTime ≤ d'.currTime) :
    0 ≤ d.percentageRuntime ∧ d.percentageRuntime ≤ 1 ∧
      d.percentageRuntime ≤ d'.percentageRuntime := by
  rw [percentageRuntime_eq_max, percentageRuntime_eq_max, hcap1, hcap2, hcap3]
  refine ⟨le_trans (budgetRatio_nonneg _ _) (le_trans (le_max_left _ _) (le_max_left _ _)),
    ?_, ?_⟩
  · exact max_le (max_le (budgetRatio_le_one hNE) (budgetRatio_le_one hIt))
      (budgetRatio_le_one hTm)
  · exact max_le_max (max_le_max (budgetRatio_mono hc1) (budgetRatio_mono hc2))
      (budgetRatio_mono hc3)

/-- Witness for C5 (amended): a concrete pair of in-budget states. -/
theorem percentageRuntime_bounds_and_monotone_witness :
    0 ≤ (IterationData.percentageRuntime
          { currTime := 1, currIteration := 2, currNumberEvaluation := 30,
            maxTimeSeconds := 10, maxNumberEvaluations := 100, maxIterations := 0 }) ∧
    (IterationData.percentageRuntime
          { currTime := 1, currIteration := 2, currNumberEvaluation := 30,
            maxTimeSeconds := 10, maxNumberEvaluations := 100, maxIterations := 0 }) ≤ 1 ∧
    (IterationData.percentageRuntime
          { currTime := 1, currIteration := 2, currNumberEvaluation := 30,
            maxTimeSeconds := 10, maxNumberEvaluations := 100, maxIterations := 0 }) ≤
      (IterationData.percentageRuntime
          { currTime := 5, currIteration := 3, currNumberEvaluation := 60,
            maxTimeSeconds := 10, maxNumberEvaluations := 100, maxIterations := 0 }) :=
  percentageRuntime_bounds_and_monotone _ _
    (by decide) (by decide) (by decide) rfl rfl rfl
    (by decide) (by decide) (by decide)

/-! ## BestList (BestList.h)

The best-list holds `listSize` slots of possibly-`NULL` `Solution`
pointers.  A slot is `Option σ` (`none` = `NULL`); the backing array of
the C++ object has exactly `listSize` cells, so a read of cell
`listSize` in C++ walks off the end of the allocation — in the model,
`List.get?` returns `none` at that index, which we use to observe the
out-of-bounds access. -/

structure BestList (σ : Type) where
  listSize : ℤ
  slots : List (Option σ)
  deriving Repr, DecidableEq

/-- `BestList::BestList(listSize, n)` (BestList.h lines 29-35):
rejects a non-positive size, otherwise allocates `listSize` empty
slots. -/
def BestList.make (σ : Type) (listSize : ℤ) : Except String (BestList σ) :=
  if listSize ≤ 0 then .error "The best list size is invalid."
  else .ok ⟨listSize, List.replicate listSize.toNat none⟩

/-- `BestList::operator[](idx)` (BestList.h lines 72-75).  The guard is
written `idx < 0 || idx > listSize` in the source; when it passes, the
C++ code returns `bestList[idx]`.  The model returns the cell when the
index is inside the allocation and `none` at the out-of-allocation
index `idx = listSize`. -/
def BestList.opIndex {σ : Type} (bl : BestList σ) (idx : ℤ) :
    Except String (Option (Option σ)) :=
  if idx < 0 ∨ idx > bl.listSize then .error "The best list index is invalid"
  else .ok (bl.slots.get? idx.toNat)

/-- `BestList::set(idx, solution)` (BestList.h lines 86-91), with the
same `idx < 0 || idx > listSize` guard; a `NULL` solution is rejected.
`List.set` is the in-bounds write; at `idx = listSize` it is a no-op
where the C++ writes past the end of the allocation. -/
def BestList.set {σ : Type} (bl : BestList σ) (idx : ℤ) (solution : Option σ) :
    Except String (BestList σ) :=
  if idx < 0 ∨ idx > bl.listSize then .error "The best list index is invalid"
  else if solution.isNone then .error "The solution cannot be empty."
  else .ok ⟨bl.listSize, bl.slots.set idx.toNat solution⟩

/-- C7 (code bug).  For a best-list of size `L = 1` built by the
constructor, the claim (and the spec's InvalidArgument rule) requires
`operator[]` and `set` to throw for every index outside `0..L-1`, so in
particular for `idx = L = 1`.  The source guard is `idx < 0 || idx >
listSize` — an off-by-one — so `idx = 1` passes the guard: the indexing
operator succeeds and reads the cell one past the end of the backing
array (`get?` = `none` marks the out-of-bounds access), and `set`
succeeds as well.  Indices `-1` and `2` do throw, and index `0`
succeeds, as the claim states. -/
theorem bestList_index_off_by_one :
    BestList.make Unit 1 = .ok ⟨1, [none]⟩ ∧
    -- idx = listSize = 1 is outside 0..L-1, yet neither operation throws:
    (BestList.opIndex (σ := Unit) ⟨1, [none]⟩ 1 = .ok none) ∧
    (BestList.set (σ := Unit) ⟨1, [none]⟩ 1 (some ()) = .ok ⟨1, [none]⟩) ∧
    -- the accepted index 1 is out of range: the backing array has 1 cell
    ([none].get? (1 : ℕ) = (none : Option (Option Unit))) ∧
    -- the behaviour the claim correctly predicts everywhere else:
    (BestList.opIndex (σ := Unit) ⟨1, [none]⟩ (-1)
      = .error "The best list index is invalid") ∧
    (BestList.opIndex (σ := Unit) ⟨1, [none]⟩ 2
      = .error "The best list index is invalid") ∧
    (BestList.opIndex (σ := Unit) ⟨1, [none]⟩ 0 = .ok (some none)) ∧
    (BestList.set (σ := Unit) ⟨1, [none]⟩ 0 (some ())
      = .ok ⟨1, [some ()]⟩) := by
  refine ⟨?_, ?_, ?_, ?_, ?_, ?_, ?_, ?_⟩ <;> rfl

/-! ## generalBest updates (THBuilder.h)

Every assignment to the node's `generalBest` after its initialization
has the same guarded shape `if(fitnessPolicy->firstIsBetter(candidate,
generalBest)) *generalBest = candidate;`:

* `SearchGroup::resetPopulation`, THBuilder.h lines 991-993;
* `SearchGroup::run`, THBuilder.h lines 918-920;
* the child-refinement step of the iteration body, lines 1427-1428;
* the residual-communication phase, lines 1713-1716.

The candidate offered at each site (`iterationBest`, the refined
`childBest`, `tmpMember`) is an arbitrary solution, so the evolution of
`generalBest` is the fold of the guarded update over an arbitrary
candidate stream.  `firstIsBetter` is the abstract user-supplied
`FitnessPolicy::firstIsBetter`.  The initial value is set by
`THImpl::THImpl` (lines 1165-1168): a fresh solution on which
`fitnessPolicy->setWorstFitness` is called. -/

/-- The single guarded-update shape shared by all four `generalBest`
assignment sites. -/
def updateGeneralBest {σ : Type} (firstIsBetter : σ → σ → Bool)
    (generalBest candidate : σ) : σ :=
  if firstIsBetter candidate generalBest then candidate else generalBest

/-- The value of `generalBest` after the first `k` update sites have
run, starting from the worst-fitness sentinel installed by the
`THImpl` constructor, with `cands j` the candidate offered at site
`j`. -/
def generalBestSeq {σ : Type} (firstIsBetter : σ → σ → Bool) (worst : σ)
    (cands : ℕ → σ) : ℕ → σ
  | 0 => worst
  | k + 1 => updateGeneralBest firstIsBetter
      (generalBestSeq firstIsBetter worst cands k) (cands k)

/-- C3.  `generalBest` starts at the fitness policy's worst sentinel,
changes only when `firstIsBetter` reports the candidate strictly
better, and — whenever `firstIsBetter` is a strict order (transitive
and irreflexive, as any total order's strict part is) — never
regresses: no earlier value is ever strictly better than a later one,
and every later value is the earlier one or a strict improvement. -/
theorem generalBest_never_regresses {σ : Type}
    (firstIsBetter : σ → σ → Bool) (worst : σ) (cands : ℕ → σ)
    (htrans : ∀ a b c, firstIsBetter a b = true → firstIsBetter b c = true →
      firstIsBetter a c = true)
    (hirrefl : ∀ a, firstIsBetter a a = false) :
    generalBestSeq firstIsBetter worst cands 0 = worst ∧
    (∀ k, generalBestSeq firstIsBetter worst cands (k + 1)
        = generalBestSeq firstIsBetter worst cands k ∨
      firstIsBetter (generalBestSeq firstIsBetter worst cands (k + 1))
        (generalBestSeq firstIsBetter worst cands k) = true) ∧
    (∀ i j, i ≤ j →
      (generalBestSeq firstIsBetter worst cands j
          = generalBestSeq firstIsBetter worst cands i ∨
        firstIsBetter (generalBestSeq firstIsBetter worst cands j)
          (generalBestSeq firstIsBetter worst cands i) = true) ∧
      firstIsBetter (generalBestSeq firstIsBetter worst cands i)
        (generalBestSeq firstIsBetter worst cands j) = false) := by
  set g := generalBestSeq firstIsBetter worst cands with hg
  have hstep : ∀ k, g (k + 1) = g k ∨ firstIsBetter (g (k + 1)) (g k) = true := by
    intro k
    have hdef : g (k + 1) = updateGeneralBest firstIsBetter (g k) (cands k) := rfl
    rw [hdef]
    unfold updateGeneralBest
    by_cases h : firstIsBetter (cands k) (g k) = true
    · right
      simp [h]
    · left
      simp [h]
  have hchain : ∀ i j, i ≤ j → g j = g i ∨ firstIsBetter (g j) (g i) = true := by
    intro i j
    induction j with
    | zero =>
      intro hij
      left
      rw [Nat.le_zero.mp hij]
    | succ k ih =>
      intro hij
      rcases Nat.lt_or_ge i (k + 1) with hlt | hge
      · have hik : i ≤ k := Nat.lt_succ_iff.mp hlt
        rcases ih hik with hEq | hBet
        · rcases hstep k with h1 | h1
          · left; rw [h1, hEq]
          · right; rw [hEq] at h1; exact h1
        · rcases hstep k with h1 | h1
          · right; rw [h1]; exact hBet
          · right; exact htrans _ _ _ h1 hBet
      · have : i = k + 1 := le_antisymm hij hge
        left; rw [this]
  have hasym : ∀ a b, firstIsBetter a b = true → firstIsBetter b a = false := by
    intro a b hab
    by_contra h
    have hba : firstIsBetter b a = true := by
      cases hcase : firstIsBetter b a
      · exact absurd hcase h
      · rfl
    have := htrans _ _ _ hab hba
    rw [hirrefl] at this
    exact Bool.noConfusion this
  refine ⟨rfl, hstep, ?_⟩
  intro i j hij
  refine ⟨hchain i j hij, ?_⟩
  rcases hchain i j hij with hEq | hBet
  · rw [hEq]; exact hirrefl _
  · exact hasym _ _ hBet

/-- Witness for C3: the strict order `<` on `ℚ` fitness values, a
concrete worst sentinel, and a concrete candidate stream. -/
theorem generalBest_never_regresses_witness :
    generalBestSeq (fun a b : ℚ => decide (a < b)) 1000 (fun k => (k : ℚ)) 0 = 1000 ∧
    (∀ k, generalBestSeq (fun a b : ℚ => decide (a < b)) 1000 (fun k => (k : ℚ)) (k + 1)
        = generalBestSeq (fun a b : ℚ => decide (a < b)) 1000 (fun k => (k : ℚ)) k ∨
      decide ((generalBestSeq (fun a b : ℚ => decide (a < b)) 1000 (fun k => (k : ℚ)) (k + 1))
        < (generalBestSeq (fun a b : ℚ => decide (a < b)) 1000 (fun k => (k : ℚ)) k)) = true) ∧
    (∀ i j, i ≤ j →
      ((generalBestSeq (fun a b : ℚ => decide (a < b)) 1000 (fun k => (k : ℚ)) j
          = generalBestSeq (fun a b : ℚ => decide (a < b)) 1000 (fun k => (k : ℚ)) i) ∨
        decide ((generalBestSeq (fun a b : ℚ => decide (a < b)) 1000 (fun k => (k : ℚ)) j)
          < (generalBestSeq (fun a b : ℚ => decide (a < b)) 1000 (fun k => (k : ℚ)) i)) = true) ∧
      decide ((generalBestSeq (fun a b : ℚ => decide (a < b)) 1000 (fun k => (k : ℚ)) i)
        < (generalBestSeq (fun a b : ℚ => decide (a < b)) 1000 (fun k => (k : ℚ)) j)) = false) :=
  generalBest_never_regresses (fun a b : ℚ => decide (a < b)) 1000 (fun k => (k : ℚ))
    (fun a b c hab hbc => by
      simp only [decide_eq_true_eq] at *
      exact lt_trans hab hbc)
    (fun a => by simp)

/-! ## Positions, Regions and the Beta relocation (Position.h, Region.h,
Solution.h, BetaRelocationStrategyPolicy.h)

A `Position` holds `pSize` scalars; modelled as `List ℚ`.  A
`Partition`/`Dimension` is an interval; `Region` keeps, per dimension
index (= dimension ID), the full original `Dimension` interval and the
current anchor `Partition` interval. -/

structure Interval where
  startPoint : ℚ
  endPoint : ℚ
  deriving Repr, DecidableEq

/-- One dimension of a `Region`: its original `Dimension` interval and
its current anchor `Partition` interval.  `Region::operator[](d)` is a
positional lookup because dimension IDs are the sequence `0..n-1`. -/
structure RegionDim where
  dim : Interval
  part : Interval
  deriving Repr, DecidableEq

/-- `Region`: the dimension-indexed list of (Dimension, Partition)
pairs. -/
abbrev RegionQ : Type := List RegionDim

/-- `Position::adjustUpperBound` (Position.h lines 286-290): every
value larger than `maxPos` is set to `maxPos`. -/
def adjustUpperBound (maxPos : ℚ) (pos : List ℚ) : List ℚ :=
  pos.map (fun v => if v > maxPos then maxPos else v)

/-- `Position::adjustLowerBound` (Position.h lines 299-303): every
value smaller than `minPos` is set to `minPos`. -/
def adjustLowerBound (minPos : ℚ) (pos : List ℚ) : List ℚ :=
  pos.map (fun v => if v < minPos then minPos else v)

/-- `Position::sub(Position)` — element-wise difference. -/
def posSub (a b : List ℚ) : List ℚ := a.zipWith (· - ·) b

/-- `Position::mult(double)` — scale every element. -/
def posMult (c : ℚ) (a : List ℚ) : List ℚ := a.map (· * c)

/-- `Solution::reset(region)` without bias (Solution.h lines 294-323,
`else` branch at line 315): for dimension `i`, every element of the
position is assigned the same uniform sample
`randUniformDouble(seed, partition.start, partition.end)` (the
`operator=(P value)` fill), then the position is clamped to the
partition's interval.  `u i` is the oracle for the `i`-th uniform
sample of this reset call; `pSize` is the position width. -/
def solutionReset (pSize : ℕ) (region : RegionQ) (u : ℕ → ℚ) :
    List (List ℚ) :=
  (List.range region.length).map (fun i =>
    let partition := ((region.get? i).map RegionDim.part).getD ⟨0, 0⟩
    adjustLowerBound partition.startPoint
      (adjustUpperBound partition.endPoint (List.replicate pSize (u i))))

/-- The per-dimension body of `BetaRelocationStrategyPolicy::apply`
(BetaRelocationStrategyPolicy.h lines 141-151): pull the freshly reset
position toward `parentBest[j]` by the Beta-quantile factor `q`, then
clamp to the ORIGINAL dimension bounds. -/
def betaPullDim (dim : Interval) (parentBestj : List ℚ) (q : ℚ)
    (pos : List ℚ) : List ℚ :=
  let tmp := posMult q (posSub pos parentBestj)
  adjustLowerBound dim.startPoint
    (adjustUpperBound dim.endPoint (posSub pos tmp))

/-- `BetaRelocationStrategyPolicy::apply` (lines 102-153), population
loop only (the displacement-rate and Beta-shape computation feed only
the quantile oracle `q`).  Individual `i` is first `reset` inside the
anchor sub-region with uniform oracle `u i`, then every dimension `j`
is pulled toward `parentBest` with quantile oracle `q i j` and clamped
to the dimension bounds.  The call throws when the population is
empty (line 106). -/
def betaRelocationApply (pSize : ℕ) (region : RegionQ)
    (parentBest : List (List ℚ)) (u : ℕ → ℕ → ℚ) (q : ℕ → ℕ → ℚ)
    (populationSize : ℕ) : Except String (List (List (List ℚ))) :=
  if populationSize = 0 then
    .error "All parameters for relocation strategy must be provided."
  else
    .ok ((List.range populationSize).map (fun i =>
      let resetSol := solutionReset pSize region (u i)
      (List.range region.length).map (fun j =>
        let dim := ((region.get? j).map RegionDim.dim).getD ⟨0, 0⟩
        let pos := resetSol.getD j []
        betaPullDim dim (parentBest.getD j []) (q i j) pos)))

lemma mem_adjust_bounds {lo hi : ℚ} (h : lo ≤ hi) (pos : List ℚ) :
    ∀ v ∈ adjustLowerBound lo (adjustUpperBound hi pos), lo ≤ v ∧ v ≤ hi := by
  intro v hv
  unfold adjustLowerBound adjustUpperBound at hv
  simp only [List.map_map, List.mem_map, Function.comp_apply] at hv
  obtain ⟨w, _, hw⟩ := hv
  by_cases h1 : w > hi
  · rw [if_pos h1, if_neg (not_lt.mpr h)] at hw
    rw [← hw]
    exact ⟨h, le_rfl⟩
  · rw [if_neg h1] at hw
    by_cases h2 : w < lo
    · rw [if_pos h2] at hw
      rw [← hw]
      exact ⟨le_rfl, h⟩
    · rw [if_neg h2] at hw
      rw [← hw]
      exact ⟨not_lt.mp h2, not_lt.mp h1⟩

/-- C6.  After `BetaRelocationStrategyPolicy::apply` on a valid region
(each dimension interval well-formed, `startPoint ≤ endPoint`) and a
non-empty population, every coordinate of every relocated individual
lies inside the corresponding full `Dimension` interval: the final
`adjustUpperBound(dim->getEndPoint())` / `adjustLowerBound(dim->
getStartPoint())` pair clamps whatever the Beta pull produced. -/
theorem betaRelocation_within_dimension_bounds
    (pSize : ℕ) (region : RegionQ) (parentBest : List (List ℚ))
    (u q : ℕ → ℕ → ℚ) (populationSize : ℕ)
    (hwf : ∀ rd ∈ region, rd.dim.startPoint ≤ rd.dim.endPoint)
    (result : List (List (List ℚ)))
    (hres : betaRelocationApply pSize region parentBest u q populationSize
      = .ok result) :
    ∀ sol ∈ result, ∀ j rd pos, region.get? j = some rd →
      sol.get? j = some pos →
      ∀ v ∈ pos, rd.dim.startPoint ≤ v ∧ v ≤ rd.dim.endPoint := by
  unfold betaRelocationApply at hres
  by_cases hpop : populationSize = 0
  · rw [if_pos hpop] at hres
    exact absurd hres (by simp)
  · rw [if_neg hpop] at hres
    injection hres with hres
    intro sol hsol j rd pos hrd hpos
    subst hres
    simp only [List.mem_map, List.mem_range] at hsol
    obtain ⟨i, _, hsol⟩ := hsol
    subst hsol
    have hj : j < region.length := by
      by_contra hge
      rw [List.get?_eq_none.mpr (not_lt.mp hge)] at hrd
      exact Option.noConfusion hrd
    rw [List.get?_map, List.get?_range hj] at hpos
    simp only [Option.map_eq_some'] at hpos
    obtain ⟨jv, hjv, hpos⟩ := hpos
    injection hjv with hjv
    subst hjv
    subst hpos
    unfold betaPullDim
    have hdim : ((region.get? j).map RegionDim.dim).getD ⟨0, 0⟩ = rd.dim := by
      rw [hrd]; rfl
    rw [hdim]
    exact mem_adjust_bounds (hwf rd (List.get?_mem hrd)) _

/-- Witness for C6: a concrete two-dimensional region, one-individual
population, and concrete random oracles; the relocated individual is
`[[0], [1]]` and both coordinates lie inside their dimension
intervals `[0, 2]` and `[1, 3]`. -/
theorem betaRelocation_within_dimension_bounds_witness :
    ((0 : ℚ) ≤ 0 ∧ (0 : ℚ) ≤ 2) ∧ ((1 : ℚ) ≤ 1 ∧ (1 : ℚ) ≤ 3) := by
  have h := betaRelocation_within_dimension_bounds 1
    [⟨⟨0, 2⟩, ⟨0, 1⟩⟩, ⟨⟨1, 3⟩, ⟨2, 3⟩⟩] [[0], [0]]
    (fun _ _ => 0) (fun _ _ => 1) 1
    (by
      intro rd hrd
      simp only [List.mem_cons, List.mem_singleton] at hrd
      rcases hrd with h | h | h
      · rw [h]; norm_num
      · rw [h]; norm_num
      · exact absurd h (List.not_mem_nil rd))
    [[[(0 : ℚ)], [(1 : ℚ)]]]
    (by
      simp only [betaRelocationApply, solutionReset, betaPullDim, adjustUpperBound,
        adjustLowerBound, posSub, posMult, List.range_succ, List.range_zero,
        List.map_nil, List.map_append, List.map_cons, List.nil_append,
        List.zipWith, List.replicate, List.getD, List.get?, List.length_cons,
        List.length_nil, List.map]
      norm_num)
  refine ⟨?_, ?_⟩
  · exact h [[0], [1]] (List.mem_singleton.mpr rfl) 0 ⟨⟨0, 2⟩, ⟨0, 1⟩⟩ [0]
      rfl rfl 0 (List.mem_singleton.mpr rfl)
  · exact h [[0], [1]] (List.mem_singleton.mpr rfl) 1 ⟨⟨1, 3⟩, ⟨2, 3⟩⟩ [1]
      rfl rfl 1 (List.mem_singleton.mpr rfl)

/-! ## Reference optimizers (HillClimbing.h, PSO.h)

Both optimizers are modelled at the default template instantiation
(`P = F = double`, `pSize = fSize = 1`) used by the examples: a
solution is one scalar per dimension plus a fitness value.  The random
stream (`THUtil::randUniformDouble`, backed by `rand_r` over a
`/dev/urandom` seed) is an oracle `rand : ℕ → ℚ` consumed left to
right through an index threaded through the state; the user-supplied
`FitnessPolicy` is the oracle pair `applyFit` / `firstIsBetter`.
Bounded `for` loops are written with a structurally decreasing
`remaining` counter (`remaining = bound - index`), so that the loop
guard `index < bound && ...` of the source becomes
`remaining > 0` plus the remaining source conditions. -/

structure Sol where
  pos : List ℚ
  fit : ℚ
  deriving Repr, DecidableEq

instance : Inhabited Sol := ⟨⟨[], 0⟩⟩

/-- Configuration of one `HillClimbing` (resp. `PSO`) `next(M)` call:
population size, dimension count, algorithm parameters, search-space
dimensions, the random stream and the fitness policy.
`maxNoImprove` is the `MAX_NO_IMPROVE` macro (5 in config.h). -/
structure OptConfig where
  p : ℕ
  n : ℕ
  dims : ℕ → Interval
  rand : ℕ → ℚ
  applyFit : List ℚ → ℚ
  firstIsBetter : Sol → Sol → Bool
  maxNoImprove : ℕ

/-- `HillClimbing` mutable state (fields of the class plus the locals
of `next`: the candidate solution, `found`, `noImprove`, and the
position in the random stream). -/
structure HCState where
  population : List Sol
  candidate : Sol
  gb : ℕ
  nEvals : ℤ
  stuck : Bool
  found : Bool
  noImprove : ℕ
  rng : ℕ
  deriving Repr, DecidableEq

/-- Body of the innermost loop of `HillClimbing::next` (HillClimbing.h
lines 103-118) for population index `i` and dimension `d`: with
probability `1 - percMove` skip; otherwise copy `population[i]` into
`candidate`, perturb dimension `d` by `step * randUniformDouble(seed,
dim.start, dim.end)` clamped to the dimension, evaluate (one counted
evaluation), and on improvement write dimension `d` back into
`population[i]` (one dimension only — the fitness of `population[i]`
is not updated, preserved literally from the source) and possibly
improve `gb`/`found`. -/
def hcInner (cfg : OptConfig) (percMove step : ℚ) (i d : ℕ) (st : HCState) : HCState :=
  if cfg.rand st.rng > percMove then { st with rng := st.rng + 1 }
  else
    let dim := cfg.dims d
    let popi := st.population.getD i default
    let perturbed := popi.pos.getD d 0 + step * cfg.rand (st.rng + 1)
    let clamped := if perturbed > dim.endPoint then dim.endPoint else perturbed
    let clamped := if clamped < dim.startPoint then dim.startPoint else clamped
    let candidate : Sol := { pos := popi.pos.set d clamped, fit := popi.fit }
    let candidate : Sol := { candidate with fit := cfg.applyFit candidate.pos }
    let st := { st with candidate := candidate, nEvals := st.nEvals + 1,
                        rng := st.rng + 2 }
    if cfg.firstIsBetter candidate popi then
      let population := st.population.set i { popi with pos := popi.pos.set d clamped }
      let st := { st with population := population }
      if i ≠ st.gb ∧ cfg.firstIsBetter (population.getD i default)
          (population.getD st.gb default) then
        { st with found := true, gb := i }
      else st
    else
      { st with candidate :=
          { candidate with pos := candidate.pos.set d (popi.pos.getD d 0) } }

/-- The dimension loop `for(d=0; d < n && nEvals < M; d++)`
(HillClimbing.h line 102); `remaining = n - d`. -/
def hcLoopD (cfg : OptConfig) (percMove step : ℚ) (M : ℤ) (i : ℕ) :
    ℕ → ℕ → HCState → HCState
  | 0, _, st => st
  | remaining + 1, d, st =>
      if st.nEvals < M then
        hcLoopD cfg percMove step M i remaining (d + 1) (hcInner cfg percMove step i d st)
      else st

/-- The population loop `for(i=0; i < p && nEvals < M; i++)`
(HillClimbing.h line 101); `remaining = p - i`. -/
def hcLoopI (cfg : OptConfig) (percMove step : ℚ) (M : ℤ) :
    ℕ → ℕ → HCState → HCState
  | 0, _, st => st
  | remaining + 1, i, st =>
      if st.nEvals < M then
        hcLoopI cfg percMove step M remaining (i + 1)
          (hcLoopD cfg percMove step M i cfg.n 0 st)
      else st

/-- The outer `while((!found && noImprove < MAX_NO_IMPROVE) && nEvals <
M)` loop of `HillClimbing::next` (lines 100-122), fuel-indexed. -/
def hcWhile (cfg : OptConfig) (percMove step : ℚ) (M : ℤ) :
    ℕ → HCState → HCState
  | 0, st => st
  | fuel + 1, st =>
      if (¬st.found ∧ st.noImprove < cfg.maxNoImprove) ∧ st.nEvals < M then
        let st := hcLoopI cfg percMove step M cfg.p 0 st
        let st := if ¬st.found then { st with noImprove := st.noImprove + 1 } else st
        hcWhile cfg percMove step M fuel st
      else st

/-- `HillClimbing::next(M)` (HillClimbing.h lines 94-124): reset the
call-local `candidate`, `found` and `noImprove`, run the sweep loop,
and set `stuck` when `MAX_NO_IMPROVE` passes went by without
improvement. -/
def hcNext (cfg : OptConfig) (percMove step : ℚ) (M : ℤ) (fuel : ℕ)
    (st : HCState) : HCState :=
  let st := { st with candidate := ⟨List.replicate cfg.n 0, 0⟩,
                      found := false, noImprove := 0 }
  let st := hcWhile cfg percMove step M fuel st
  if st.noImprove = cfg.maxNoImprove then { st with stuck := true } else st

lemma hcInner_nEvals (cfg : OptConfig) (percMove step : ℚ) (i d : ℕ) (st : HCState) :
    (hcInner cfg percMove step i d st).nEvals = st.nEvals ∨
      (hcInner cfg percMove step i d st).nEvals = st.nEvals + 1 := by
  unfold hcInner
  dsimp only
  repeat' split
  all_goals first | (left; rfl) | (right; rfl)

lemma hcLoopD_nEvals_le (cfg : OptConfig) (percMove step : ℚ) (M : ℤ) (i : ℕ) :
    ∀ remaining d st, st.nEvals ≤ M →
      (hcLoopD cfg percMove step M i remaining d st).nEvals ≤ M := by
  intro remaining
  induction remaining with
  | zero => intro d st h; exact h
  | succ r ih =>
    intro d st h
    unfold hcLoopD
    split
    · next hlt =>
      apply ih
      rcases hcInner_nEvals cfg percMove step i d st with he | he
      · rw [he]; exact h
      · rw [he]; omega
    · exact h

lemma hcLoopI_nEvals_le (cfg : OptConfig) (percMove step : ℚ) (M : ℤ) :
    ∀ remaining i st, st.nEvals ≤ M →
      (hcLoopI cfg percMove step M remaining i st).nEvals ≤ M := by
  intro remaining
  induction remaining with
  | zero => intro i st h; exact h
  | succ r ih =>
    intro i st h
    unfold hcLoopI
    split
    · exact ih _ _ (hcLoopD_nEvals_le cfg percMove step M _ _ _ _ h)
    · exact h

lemma hcWhile_nEvals_le (cfg : OptConfig) (percMove step : ℚ) (M : ℤ) :
    ∀ fuel st, st.nEvals ≤ M →
      (hcWhile cfg percMove step M fuel st).nEvals ≤ M := by
  intro fuel
  induction fuel with
  | zero => intro st h; exact h
  | succ f ih =>
    intro st h
    unfold hcWhile
    split
    · apply ih
      have h1 := hcLoopI_nEvals_le cfg percMove step M cfg.p 0 st h
      split <;> simpa
    · exact h

/-- `PSO` mutable state: the shared population, the personal bests,
the velocities, plus the call-local `found`, `noImprove` and the
current inertia weight `currW`. -/
structure PSOState where
  population : List Sol
  pBest : List Sol
  v : List Sol
  gb : ℕ
  nEvals : ℤ
  stuck : Bool
  found : Bool
  noImprove : ℕ
  currW : ℚ
  rng : ℕ
  deriving Repr, DecidableEq

/-- Velocity/position update of `PSO::next` for particle `i`,
dimension `j` (PSO.h lines 274-297): standard PSO velocity with
inertia `currW`, then the position is moved and clamped to the
dimension bounds.  No fitness evaluation happens here. -/
def psoInnerJ (cfg : OptConfig) (c1 c2 : ℚ) (i j : ℕ) (st : PSOState) : PSOState :=
  let dim := cfg.dims j
  let pbij := (st.pBest.getD i default).pos.getD j 0
  let gij := (st.population.getD i default).pos.getD j 0
  let gbj := (st.population.getD st.gb default).pos.getD j 0
  let pos1 := (pbij - gij) * (c1 * cfg.rand st.rng)
  let pos2 := (gbj - gij) * (c2 * cfg.rand (st.rng + 1)) + pos1
  let vij := (st.v.getD i default).pos.getD j 0 * st.currW + pos2
  let vsol := st.v.getD i default
  let v' := st.v.set i { vsol with pos := vsol.pos.set j vij }
  let moved := gij + vij
  let moved := if moved > dim.endPoint then dim.endPoint else moved
  let moved := if moved < dim.startPoint then dim.startPoint else moved
  let popi := st.population.getD i default
  { st with v := v',
            population := st.population.set i { popi with pos := popi.pos.set j moved },
            rng := st.rng + 2 }

/-- The dimension loop of `PSO::next` (line 274), `remaining = n - j`;
note there is NO budget check inside it. -/
def psoLoopJ (cfg : OptConfig) (c1 c2 : ℚ) (i : ℕ) :
    ℕ → ℕ → PSOState → PSOState
  | 0, _, st => st
  | remaining + 1, j, st =>
      psoLoopJ cfg c1 c2 i remaining (j + 1) (psoInnerJ cfg c1 c2 i j st)

/-- The first particle loop of `PSO::next` (lines 273-300): move every
particle, then evaluate it — `fitnessPolicy->apply(population[i]);
nEvals++;` — WITHOUT re-checking the budget.  `remaining = p - i`. -/
def psoLoopI1 (cfg : OptConfig) (c1 c2 : ℚ) :
    ℕ → ℕ → PSOState → PSOState
  | 0, _, st => st
  | remaining + 1, i, st =>
      let st := psoLoopJ cfg c1 c2 i cfg.n 0 st
      let popi := st.population.getD i default
      let st := { st with
        population := st.population.set i { popi with fit := cfg.applyFit popi.pos },
        nEvals := st.nEvals + 1 }
      psoLoopI1 cfg c1 c2 remaining (i + 1) st

/-- The second particle loop of `PSO::next` (lines 301-309): when
particle `i` beats its personal best the source executes
`*population[i] = pBest[i]` — copying the personal best back over the
particle, preserved literally — and then possibly improves
`gb`/`found`. -/
def psoInnerI2 (cfg : OptConfig) (i : ℕ) (st : PSOState) : PSOState :=
  let popi := st.population.getD i default
  let pbi := st.pBest.getD i default
  if cfg.firstIsBetter popi pbi then
    let population := st.population.set i pbi
    let st := { st with population := population }
    if i ≠ st.gb ∧ cfg.firstIsBetter (population.getD i default)
        (population.getD st.gb default) then
      { st with found := true, gb := i }
    else st
  else st

def psoLoopI2 (cfg : OptConfig) : ℕ → ℕ → PSOState → PSOState
  | 0, _, st => st
  | remaining + 1, i, st =>
      psoLoopI2 cfg remaining (i + 1) (psoInnerI2 cfg i st)

/-- One pass of the outer `while` loop of `PSO::next` (lines 272-312):
a full movement+evaluation sweep, the personal/global-best update
sweep, the `noImprove` bump and the inertia decrement `currW -= w/M`. -/
def psoSweep (cfg : OptConfig) (w c1 c2 : ℚ) (M : ℤ) (st : PSOState) : PSOState :=
  let st := psoLoopI1 cfg c1 c2 cfg.p 0 st
  let st := psoLoopI2 cfg cfg.p 0 st
  let st := if ¬st.found then { st with noImprove := st.noImprove + 1 } else st
  { st with currW := st.currW - w / (M : ℚ) }

/-- The outer `while(!found && nEvals < M && noImprove <
MAX_NO_IMPROVE)` loop of `PSO::next`, fuel-indexed. -/
def psoWhile (cfg : OptConfig) (w c1 c2 : ℚ) (M : ℤ) :
    ℕ → PSOState → PSOState
  | 0, st => st
  | fuel + 1, st =>
      if ¬st.found ∧ st.nEvals < M ∧ st.noImprove < cfg.maxNoImprove then
        psoWhile cfg w c1 c2 M fuel (psoSweep cfg w c1 c2 M st)
      else st

/-- `PSO::next(M)` (PSO.h lines 265-314). -/
def psoNext (cfg : OptConfig) (w c1 c2 : ℚ) (M : ℤ) (fuel : ℕ)
    (st : PSOState) : PSOState :=
  let st := { st with found := false, noImprove := 0,
                      currW := w - (w / (M : ℚ)) * (st.nEvals : ℚ) }
  let st := psoWhile cfg w c1 c2 M fuel st
  if st.noImprove = cfg.maxNoImprove then { st with stuck := true } else st

lemma psoInnerJ_nEvals (cfg : OptConfig) (c1 c2 : ℚ) (i j : ℕ) (st : PSOState) :
    (psoInnerJ cfg c1 c2 i j st).nEvals = st.nEvals := rfl

lemma psoLoopJ_nEvals (cfg : OptConfig) (c1 c2 : ℚ) (i : ℕ) :
    ∀ remaining j st, (psoLoopJ cfg c1 c2 i remaining j st).nEvals = st.nEvals := by
  intro remaining
  induction remaining with
  | zero => intro j st; rfl
  | succ r ih =>
    intro j st
    unfold psoLoopJ
    rw [ih, psoInnerJ_nEvals]

lemma psoLoopI1_nEvals (cfg : OptConfig) (c1 c2 : ℚ) :
    ∀ remaining i st,
      (psoLoopI1 cfg c1 c2 remaining i st).nEvals = st.nEvals + remaining := by
  intro remaining
  induction remaining with
  | zero => intro i st; simp [psoLoopI1]
  | succ r ih =>
    intro i st
    unfold psoLoopI1
    rw [ih]
    simp only [psoLoopJ_nEvals]
    omega

lemma psoInnerI2_nEvals (cfg : OptConfig) (i : ℕ) (st : PSOState) :
    (psoInnerI2 cfg i st).nEvals = st.nEvals := by
  unfold psoInnerI2
  dsimp only
  repeat' split
  all_goals rfl

lemma psoLoopI2_nEvals (cfg : OptConfig) :
    ∀ remaining i st, (psoLoopI2 cfg remaining i st).nEvals = st.nEvals := by
  intro remaining
  induction remaining with
  | zero => intro i st; rfl
  | succ r ih =>
    intro i st
    unfold psoLoopI2
    rw [ih, psoInnerI2_nEvals]

lemma psoSweep_nEvals (cfg : OptConfig) (w c1 c2 : ℚ) (M : ℤ) (st : PSOState) :
    (psoSweep cfg w c1 c2 M st).nEvals = st.nEvals + cfg.p := by
  unfold psoSweep
  dsimp only
  split <;> simp [psoLoopI2_nEvals, psoLoopI1_nEvals]

lemma psoWhile_nEvals_le (cfg : OptConfig) (w c1 c2 : ℚ) (M : ℤ) :
    ∀ fuel st, st.nEvals ≤ M + (cfg.p : ℤ) - 1 →
      (psoWhile cfg w c1 c2 M fuel st).nEvals ≤ M + (cfg.p : ℤ) - 1 := by
  intro fuel
  induction fuel with
  | zero => intro st h; exact h
  | succ f ih =>
    intro st h
    unfold psoWhile
    split
    · next hguard =>
      apply ih
      rw [psoSweep_nEvals]
      omega
    · exact h

/-- C1 (amended).  The two reference optimizers treat the budget `M`
differently.  `HillClimbing::next` re-checks `nEvals < M` before every
single evaluation, so its cumulative counter never exceeds `M` — at
entry, during, and after the call.  `PSO::next` re-checks the budget
only between full population sweeps and evaluates all `p` particles of
a sweep unconditionally, so from any entry state within budget
(`nEvals ≤ M`, which CSMOn guarantees since it only calls `next` while
`nEvals < M`) its counter can reach, but never exceed, `M + p - 1`. -/
theorem optimizer_budget_bounds (cfg : OptConfig) (percMove step w c1 c2 : ℚ)
    (M : ℤ) (fuel : ℕ) (hcSt : HCState) (psoSt : PSOState)
    (hp : 1 ≤ cfg.p)
    (hhc : hcSt.nEvals ≤ M) (hpso : psoSt.nEvals ≤ M) :
    (hcNext cfg percMove step M fuel hcSt).nEvals ≤ M ∧
    (psoNext cfg w c1 c2 M fuel psoSt).nEvals ≤ M + (cfg.p : ℤ) - 1 := by
  constructor
  · unfold hcNext
    dsimp only
    have h := hcWhile_nEvals_le cfg percMove step M fuel
      { hcSt with candidate := ⟨List.replicate cfg.n 0, 0⟩,
                  found := false, noImprove := 0 } (by simpa using hhc)
    split <;> simpa using h
  · unfold psoNext
    dsimp only
    have h := psoWhile_nEvals_le cfg w c1 c2 M fuel
      { psoSt with found := false, noImprove := 0,
                   currW := w - (w / (M : ℚ)) * (psoSt.nEvals : ℚ) }
      (by simp only; omega)
    split <;> simpa using h

/-- The concrete configuration of the C1 counterexample: two particles,
one dimension, trivial oracles. -/
def cexCfg : OptConfig :=
  { p := 2, n := 1, dims := fun _ => ⟨0, 1⟩, rand := fun _ => 0,
    applyFit := fun _ => 0, firstIsBetter := fun _ _ => false, maxNoImprove := 5 }

/-- The PSO state right after `startup()` on a two-particle population:
counters reset, all positions and velocities 0. -/
def cexPsoState : PSOState :=
  { population := [⟨[0], 0⟩, ⟨[0], 0⟩], pBest := [⟨[0], 0⟩, ⟨[0], 0⟩],
    v := [⟨[0], 0⟩, ⟨[0], 0⟩], gb := 0, nEvals := 0, stuck := false,
    found := false, noImprove := 0, currW := 0, rng := 0 }

/-- C1 (counterexample).  The claim says the evaluation counter "never
exceeds M ... for both reference optimizers".  For `PSO::next` with
budget `M = 1` on an installed population of size `p = 2`, a single
sweep evaluates both particles before the budget is re-checked:
`getCurrentNEvals()` ends at `2 > M`. -/
theorem pso_next_exceeds_budget :
    (psoNext cexCfg 0 0 0 1 5 cexPsoState).nEvals = 2 ∧
    ¬ ((psoNext cexCfg 0 0 0 1 5 cexPsoState).nEvals ≤ 1) := by
  constructor
  · rfl
  · intro h
    have : (psoNext cexCfg 0 0 0 1 5 cexPsoState).nEvals = 2 := rfl
    omega

/-- Witness for C1 (amended): HillClimbing stays within `M = 1` and
PSO stays within `M + p - 1 = 2` on the concrete two-particle
configuration. -/
theorem optimizer_budget_bounds_witness :
    (hcNext cexCfg 0 0 1 5
        { population := [⟨[0], 0⟩, ⟨[0], 0⟩], candidate := ⟨[0], 0⟩, gb := 0,
          nEvals := 0, stuck := false, found := false, noImprove := 0,
          rng := 0 }).nEvals ≤ 1 ∧
    (psoNext cexCfg 0 0 0 1 5 cexPsoState).nEvals ≤ 1 + ((2 : ℕ) : ℤ) - 1 :=
  optimizer_budget_bounds cexCfg 0 0 0 0 0 1 5
    { population := [⟨[0], 0⟩, ⟨[0], 0⟩], candidate := ⟨[0], 0⟩, gb := 0,
      nEvals := 0, stuck := false, found := false, noImprove := 0, rng := 0 }
    cexPsoState (by decide) (by decide) (by decide)

/-! ## CSMOn (CSMOn.h)

`CSMOn::run(search)` drives an abstract `Search` (the virtual base
class of Search.h): the model packages the optimizer's five operations
as oracle functions over an opaque optimizer-state type `σ`.  The
history `gb` of `t_point`s and the counter `s` are CSMOn's own fields.
To settle the temporal claim, the model is instrumented: every time
`search->next(M)` is invoked, the pair
`(search->getCurrentNEvals(), search->isStuck())` read immediately
before the call is appended to a `calls` log.  `ln`/`log10` are oracle
parameters (they only feed the slope values that steer the loops). -/

structure SearchM (σ : Type) where
  startup : σ → σ
  next : ℤ → σ → σ
  finalize : σ → σ
  getCurrentNEvals : σ → ℤ
  isStuck : σ → Bool
  getBestFitnessFirst : σ → ℚ

structure CSMOnState (σ : Type) where
  search : σ
  s : ℤ
  gb : List (ℤ × ℚ)
  calls : List (ℤ × Bool)

/-- `CSMOn::getBest(search, nBest)` (CSMOn.h lines 96-102): up to
`nBest` pulls, each one guarded by `getCurrentNEvals() < M &&
!isStuck()`; each pull calls `next(M)` (logged), appends
`(getCurrentNEvals(), getBestFitness()->getFirstValue())` to `gb` and
increments `s`. -/
def getBest {σ : Type} (sm : SearchM σ) (M : ℤ) :
    ℕ → CSMOnState σ → CSMOnState σ
  | 0, st => st
  | nBest + 1, st =>
      if sm.getCurrentNEvals st.search < M ∧ ¬ sm.isStuck st.search then
        let s' := sm.next M st.search
        getBest sm M nBest
          { search := s',
            s := st.s + 1,
            gb := st.gb ++ [(sm.getCurrentNEvals s', sm.getBestFitnessFirst s')],
            calls := st.calls
              ++ [(sm.getCurrentNEvals st.search, sm.isStuck st.search)] }
      else st

/-- `(*gb)[k]` — history access (reads below index 0 never occur on
the paths the source exercises; the default keeps the model total). -/
def gbAt {σ : Type} (st : CSMOnState σ) (k : ℤ) : ℤ × ℚ :=
  st.gb.getD k.toNat (0, 0)

/-- `CSMOn::decayE` (lines 104-106). -/
def decayE {σ : Type} (minEstimatedFit : ℚ) (st : CSMOnState σ) : ℚ :=
  |1 - ((gbAt st st.s).2 - minEstimatedFit) / ((gbAt st (st.s - 1)).2 - minEstimatedFit)|

/-- `CSMOn::decayL` (lines 108-110). -/
def decayL {σ : Type} (st : CSMOnState σ) : ℚ :=
  |1 - ((gbAt st st.s).2 - (gbAt st (st.s - 1)).2)
      / ((gbAt st (st.s - 1)).2 - (gbAt st (st.s - 2)).2)|

/-- `CSMOn::alphaE(p1, p2)` (lines 112-129), translated literally —
including the quirk that `S1` pairs the raw `y` values with the mean
of their logarithms, and that the returned expression is the intercept
`(ySumLn - (S1/S2) * xSum) / n`. -/
def alphaE {σ : Type} (lnQ : ℚ → ℚ) (st : CSMOnState σ) (p1 p2 : ℤ) : ℚ :=
  let idxs := (List.range (p2 - p1 + 1).toNat).map (fun k => p1 + (k : ℤ))
  let n : ℚ := ((p2 - p1 + 1 : ℤ) : ℚ)
  let xSum := (idxs.map (fun i => ((gbAt st i).1 : ℚ))).sum
  let ySumLn := (idxs.map (fun i => lnQ (gbAt st i).2)).sum
  let xAvg := xSum / n
  let yAvgLn := ySumLn / n
  let S1 := (idxs.map (fun i =>
    (((gbAt st i).1 : ℚ) - xAvg) * ((gbAt st i).2 - yAvgLn))).sum
  let S2 := (idxs.map (fun i => (((gbAt st i).1 : ℚ) - xAvg) ^ 2)).sum
  (ySumLn - (S1 / S2) * xSum) / n

/-- `CSMOn::alphaP(p1, p2)` (lines 131-146): ordinary least squares of
`(log10 x, log10 y)`, returning `(ySumLog - (S1/S2) * xSumLog) / n`. -/
def alphaP {σ : Type} (log10Q : ℚ → ℚ) (st : CSMOnState σ) (p1 p2 : ℤ) : ℚ :=
  let idxs := (List.range (p2 - p1 + 1).toNat).map (fun k => p1 + (k : ℤ))
  let n : ℚ := ((p2 - p1 + 1 : ℤ) : ℚ)
  let xSumLog := (idxs.map (fun i => log10Q ((gbAt st i).1 : ℚ))).sum
  let ySumLog := (idxs.map (fun i => log10Q (gbAt st i).2)).sum
  let xAvgLog := xSumLog / n
  let yAvgLog := ySumLog / n
  let S1 := (idxs.map (fun i =>
    (log10Q ((gbAt st i).1 : ℚ) - xAvgLog) * (log10Q (gbAt st i).2 - yAvgLog))).sum
  let S2 := (idxs.map (fun i => (log10Q ((gbAt st i).1 : ℚ) - xAvgLog) ^ 2)).sum
  (ySumLog - (S1 / S2) * xSumLog) / n

/-- The `while(search->getCurrentNEvals() < M && !search->isStuck())`
loop of `CSMOn::adjustExp` (lines 63-77), fuel-indexed, threading
`pB`/`alpha2` exactly as the source does (`alpha1` exists only inside
one branch). -/
def adjustExpLoop {σ : Type} (sm : SearchM σ) (M : ℤ) (minEstimatedFit : ℚ)
    (lnQ : ℚ → ℚ) (r : ℚ) :
    ℕ → ℤ → ℚ → CSMOnState σ → ℤ × CSMOnState σ
  | 0, _, _, st => (-1, st)
  | fuel + 1, pB, alpha2, st =>
      if sm.getCurrentNEvals st.search < M ∧ ¬ sm.isStuck st.search then
        if decayE minEstimatedFit st < r ∧ decayL st < r then
          if pB = -1 then
            let pB' := st.s - 2
            let alpha2' := alphaE lnQ st pB' st.s
            adjustExpLoop sm M minEstimatedFit lnQ r fuel pB' alpha2'
              (getBest sm M 1 st)
          else
            let alpha1 := alpha2
            let alpha2' := alphaE lnQ st pB st.s
            if alpha2' < alpha1 then (st.s, st)
            else adjustExpLoop sm M minEstimatedFit lnQ r fuel pB alpha2'
              (getBest sm M 1 st)
        else adjustExpLoop sm M minEstimatedFit lnQ r fuel (-1) alpha2
          (getBest sm M 1 st)
      else (-1, st)

/-- `CSMOn::adjustExp(search, r)` (lines 57-79). -/
def adjustExp {σ : Type} (sm : SearchM σ) (M : ℤ) (minEstimatedFit : ℚ)
    (lnQ : ℚ → ℚ) (fuel : ℕ) (r : ℚ) (st : CSMOnState σ) :
    ℤ × CSMOnState σ :=
  let sPrev := st.s
  let st := getBest sm M 2 st
  if st.s - sPrev < 2 then (-1, st)
  else adjustExpLoop sm M minEstimatedFit lnQ r fuel (-1) 0 st

/-- The `while(alpha2 >= alpha1 && ...)` loop of `CSMOn::adjustLog`
(lines 87-92), fuel-indexed. -/
def adjustLogLoop {σ : Type} (sm : SearchM σ) (M : ℤ) (minEstimatedFit : ℚ)
    (log10Q : ℚ → ℚ) (r : ℚ) (pT : ℤ) :
    ℕ → ℚ → ℚ → CSMOnState σ → ℤ × CSMOnState σ
  | 0, _, _, st => (st.s, st)
  | fuel + 1, alpha1, alpha2, st =>
      if alpha2 ≥ alpha1 ∧ sm.getCurrentNEvals st.search < M
          ∧ ¬ sm.isStuck st.search then
        if decayE minEstimatedFit st ≥ r ∨ decayL st ≥ r then (-1, st)
        else
          let st' := getBest sm M 1 st
          adjustLogLoop sm M minEstimatedFit log10Q r pT fuel alpha2
            (alphaP log10Q st' pT st'.s) st'
      else (st.s, st)

/-- `CSMOn::adjustLog(search, r, pT)` (lines 81-94). -/
def adjustLog {σ : Type} (sm : SearchM σ) (M : ℤ) (minEstimatedFit : ℚ)
    (log10Q : ℚ → ℚ) (fuel : ℕ) (r : ℚ) (pT : ℤ) (st : CSMOnState σ) :
    ℤ × CSMOnState σ :=
  let sPrev := st.s
  let st := getBest sm M 3 st
  if st.s - sPrev < 3 then (-1, st)
  else adjustLogLoop sm M minEstimatedFit log10Q r pT fuel
    (alphaP log10Q st pT (st.s - 1)) (alphaP log10Q st pT st.s) st

/-- The `do { ... } while(...)` loop of `CSMOn::run` (lines 182-188):
relax `r`, run phase 1 while `pS == -1`, run phase 2 once `pT > 0`,
repeat while within budget, not stuck and not converged. -/
def csmonRunLoop {σ : Type} (sm : SearchM σ) (M : ℤ) (R minEstimatedFit : ℚ)
    (lnQ log10Q : ℚ → ℚ) (fuelE fuelL : ℕ) :
    ℕ → ℚ → ℤ → ℤ → CSMOnState σ → CSMOnState σ
  | 0, _, _, _, st => st
  | fuel + 1, r, pT, pS, st =>
      let r := max (r * r) R
      let res1 := if pS = -1 then adjustExp sm M minEstimatedFit lnQ fuelE r st
                  else (pT, st)
      let pT := res1.1
      let st := res1.2
      let res2 := if pT > 0 then adjustLog sm M minEstimatedFit log10Q fuelL r pT st
                  else (pS, st)
      let pS := res2.1
      let st := res2.2
      if sm.getCurrentNEvals st.search < M ∧ (r > R ∨ pS = -1)
          ∧ ¬ sm.isStuck st.search then
        csmonRunLoop sm M R minEstimatedFit lnQ log10Q fuelE fuelL fuel r pT pS st
      else st

/-- `CSMOn::run(search)` (lines 174-191): reset `s` and the history,
`search->startup()`, one initial pull, the relaxation do-while loop,
`search->finalize()`.  The `fuelRun + 1` makes the do-while body
execute at least once, as in the source. -/
def csmonRun {σ : Type} (sm : SearchM σ) (M : ℤ) (R minEstimatedFit : ℚ)
    (lnQ log10Q : ℚ → ℚ) (fuelE fuelL fuelRun : ℕ) (s0 : σ) : CSMOnState σ :=
  let st : CSMOnState σ := { search := sm.startup s0, s := -1, gb := [], calls := [] }
  let st := getBest sm M 1 st
  let st := csmonRunLoop sm M R minEstimatedFit lnQ log10Q fuelE fuelL
    (fuelRun + 1) (99 / 100) (-1) (-1) st
  { st with search := sm.finalize st.search }

/-- Every `next` call logged so far was issued while within budget and
not stuck. -/
def CallsGuarded {σ : Type} (M : ℤ) (st : CSMOnState σ) : Prop :=
  ∀ c ∈ st.calls, c.1 < M ∧ c.2 = false

lemma getBest_guarded {σ : Type} (sm : SearchM σ) (M : ℤ) :
    ∀ nBest st, CallsGuarded M st → CallsGuarded M (getBest sm M nBest st) := by
  intro nBest
  induction nBest with
  | zero => intro st h; exact h
  | succ n ih =>
    intro st h
    unfold getBest
    split
    · next hguard =>
      apply ih
      intro c hc
      simp only [List.mem_append, List.mem_singleton] at hc
      rcases hc with hc | hc
      · exact h c hc
      · rw [hc]
        refine ⟨hguard.1, ?_⟩
        cases hstuck : sm.isStuck st.search
        · rfl
        · exact absurd hstuck hguard.2
    · exact h

lemma adjustExpLoop_guarded {σ : Type} (sm : SearchM σ) (M : ℤ)
    (minEstimatedFit : ℚ) (lnQ : ℚ → ℚ) (r : ℚ) :
    ∀ fuel pB alpha2 st, CallsGuarded M st →
      CallsGuarded M (adjustExpLoop sm M minEstimatedFit lnQ r fuel pB alpha2 st).2 := by
  intro fuel
  induction fuel with
  | zero => intro pB alpha2 st h; exact h
  | succ f ih =>
    intro pB alpha2 st h
    unfold adjustExpLoop
    dsimp only
    repeat' split
    all_goals first
      | exact h
      | exact ih _ _ _ (getBest_guarded sm M 1 st h)

lemma adjustExp_guarded {σ : Type} (sm : SearchM σ) (M : ℤ)
    (minEstimatedFit : ℚ) (lnQ : ℚ → ℚ) (fuel : ℕ) (r : ℚ) (st : CSMOnState σ)
    (h : CallsGuarded M st) :
    CallsGuarded M (adjustExp sm M minEstimatedFit lnQ fuel r st).2 := by
  unfold adjustExp
  dsimp only
  have h2 := getBest_guarded sm M 2 st h
  split
  · exact h2
  · exact adjustExpLoop_guarded sm M minEstimatedFit lnQ r fuel _ _ _ h2

lemma adjustLogLoop_guarded {σ : Type} (sm : SearchM σ) (M : ℤ)
    (minEstimatedFit : ℚ) (log10Q : ℚ → ℚ) (r : ℚ) (pT : ℤ) :
    ∀ fuel alpha1 alpha2 st, CallsGuarded M st →
      CallsGuarded M
        (adjustLogLoop sm M minEstimatedFit log10Q r pT fuel alpha1 alpha2 st).2 := by
  intro fuel
  induction fuel with
  | zero => intro alpha1 alpha2 st h; exact h
  | succ f ih =>
    intro alpha1 alpha2 st h
    unfold adjustLogLoop
    dsimp only
    repeat' split
    all_goals first
      | exact h
      | exact ih _ _ _ (getBest_guarded sm M 1 st h)

lemma adjustLog_guarded {σ : Type} (sm : SearchM σ) (M : ℤ)
    (minEstimatedFit : ℚ) (log10Q : ℚ → ℚ) (fuel : ℕ) (r : ℚ) (pT : ℤ)
    (st : CSMOnState σ) (h : CallsGuarded M st) :
    CallsGuarded M (adjustLog sm M minEstimatedFit log10Q fuel r pT st).2 := by
  unfold adjustLog
  dsimp only
  have h3 := getBest_guarded sm M 3 st h
  split
  · exact h3
  · exact adjustLogLoop_guarded sm M minEstimatedFit log10Q r pT fuel _ _ _ h3

lemma csmonRunLoop_guarded {σ : Type} (sm : SearchM σ) (M : ℤ)
    (R minEstimatedFit : ℚ) (lnQ log10Q : ℚ → ℚ) (fuelE fuelL : ℕ) :
    ∀ fuel r pT pS st, CallsGuarded M st →
      CallsGuarded M
        (csmonRunLoop sm M R minEstimatedFit lnQ log10Q fuelE fuelL fuel r pT pS st) := by
  intro fuel
  induction fuel with
  | zero => intro r pT pS st h; exact h
  | succ f ih =>
    intro r pT pS st h
    unfold csmonRunLoop
    dsimp only
    generalize hres1 :
      (if pS = -1 then adjustExp sm M minEstimatedFit lnQ fuelE (max (r * r) R) st
       else (pT, st)) = res1
    have h1 : CallsGuarded M res1.2 := by
      rw [← hres1]
      split
      · exact adjustExp_guarded sm M minEstimatedFit lnQ fuelE _ st h
      · exact h
    generalize hres2 :
      (if res1.1 > 0 then
        adjustLog sm M minEstimatedFit log10Q fuelL (max (r * r) R) res1.1 res1.2
       else (pS, res1.2)) = res2
    have h2 : CallsGuarded M res2.2 := by
      rw [← hres2]
      split
      · exact adjustLog_guarded sm M minEstimatedFit log10Q fuelL _ _ _ h1
      · exact h1
    split
    · exact ih _ _ _ _ h2
    · exact h2

/-- C2.  Every invocation of `search->next(M)` made by `CSMOn::run` —
the initial pull, the pulls of the `adjustExp` loop, and the pulls of
the `adjustLog` loop, all of which go through `CSMOn::getBest` — is
issued only when `search->getCurrentNEvals() < M` and
`search->isStuck()` is false: the instrumented call log contains no
violating entry, for every optimizer model, budget, relaxation,
slope oracles, fuels and start state. -/
theorem csmon_never_calls_next_out_of_budget_or_stuck {σ : Type}
    (sm : SearchM σ) (M : ℤ) (R minEstimatedFit : ℚ) (lnQ log10Q : ℚ → ℚ)
    (fuelE fuelL fuelRun : ℕ) (s0 : σ) :
    ∀ c ∈ (csmonRun sm M R minEstimatedFit lnQ log10Q fuelE fuelL fuelRun s0).calls,
      c.1 < M ∧ c.2 = false := by
  intro c hc
  have h0 : CallsGuarded M
      ({ search := sm.startup s0, s := -1, gb := [], calls := [] } : CSMOnState σ) := by
    intro c hc
    exact absurd hc (List.not_mem_nil c)
  have h1 := getBest_guarded sm M 1 _ h0
  have h2 := csmonRunLoop_guarded sm M R minEstimatedFit lnQ log10Q fuelE fuelL
    (fuelRun + 1) (99 / 100) (-1) (-1) _ h1
  exact h2 c hc

/-- The concrete search model of the C2 witness: the optimizer state
is its own evaluation counter, every `next` performs one evaluation,
and it is never stuck. -/
def cexSearchM : SearchM ℤ :=
  { startup := fun s => s, next := fun _ s => s + 1, finalize := fun s => s,
    getCurrentNEvals := fun s => s, isStuck := fun _ => false,
    getBestFitnessFirst := fun _ => 1 }

/-- Witness for C2: on the concrete model with `M = 1`, `run` performs
exactly one `next` call, logged as `(0, false)`, and the theorem
yields its guard. -/
theorem csmon_never_calls_next_out_of_budget_or_stuck_witness :
    ((0 : ℤ), false) ∈ (csmonRun cexSearchM 1 (1/2) 0 id id 0 0 0 0).calls ∧
    (0 : ℤ) < 1 ∧ (false = false) := by
  have hmem : ((0 : ℤ), false) ∈ (csmonRun cexSearchM 1 (1/2) 0 id id 0 0 0 0).calls := by
    decide
  exact ⟨hmem,
    csmon_never_calls_next_out_of_budget_or_stuck cexSearchM 1 (1/2) 0 id id 0 0 0 0
      (0, false) hmem⟩

/-! ## THTree (THTree.h)

The tree is an owned arena of `t_node`s: nodes are created in
insertion order (`nodes[currSize]`), the root always occupies slot 0,
every other node stores a pointer to its (earlier-created) parent, and
`nodeMap` is the `std::map<int, t_node*>` from IDs to nodes
(`insert` keeps the existing entry on duplicate keys; values are
modelled as arena indices).  `addNode` assigns
`level = parent.level + 1` (so the pre-lock level of a node is its
depth, root depth 1) and raises `LRoot` to the maximum level seen. -/

structure TNodeM where
  ID : ℤ
  parentIdx : Option ℕ
  L : ℤ
  deriving Repr, DecidableEq

structure THTreeM where
  limitSize : ℕ
  nodes : List TNodeM
  LRoot : ℤ
  nodeMap : List (ℤ × ℕ)
  locked : Bool
  deriving Repr, DecidableEq

/-- `std::map::insert({k, v})`: a no-op when the key is present. -/
def mapInsert (m : List (ℤ × ℕ)) (k : ℤ) (v : ℕ) : List (ℤ × ℕ) :=
  if (m.lookup k).isSome then m else m ++ [(k, v)]

/-- `std::map::at(k)`: the mapped value, or a thrown
`std::out_of_range` when the key is absent. -/
def mapAt (m : List (ℤ × ℕ)) (k : ℤ) : Except String ℕ :=
  match m.lookup k with
  | some v => .ok v
  | none => .error "map::at: out_of_range"

/-- `THTree::THTree(limitSize)` (THTree.h lines 138-149). -/
def thtreeNew (limitSize : ℤ) : Except String THTreeM :=
  if limitSize ≤ 0 then .error "The tree size must be greater than zero."
  else .ok ⟨limitSize.toNat, [], 1, [], false⟩

/-- `THTree::addRootNode(ID)` (lines 162-172). -/
def addRootNode (t : THTreeM) (ID : ℤ) : Except String THTreeM :=
  if t.locked then .error "The tree is locked and cannot be changed."
  else if t.nodes ≠ [] then .error "Root node already exists."
  else .ok { t with nodes := [⟨ID, none, 1⟩], LRoot := 1,
                    nodeMap := mapInsert t.nodeMap ID 0 }

/-- `THTree::addNode(ID, parentID)` (lines 180-194): the parent is
fetched with `nodeMap.at(parentID)` (which throws for unknown IDs —
the `parent == NULL` check after it can never fire), the child gets
`level = parent.level + 1`, and `LRoot` is raised when exceeded. -/
def addNode (t : THTreeM) (ID parentID : ℤ) : Except String THTreeM :=
  if t.locked then .error "The tree is locked and cannot be changed."
  else if t.limitSize ≤ t.nodes.length then .error "Tree limit size reached."
  else do
    let pIdx ← mapAt t.nodeMap parentID
    let pL := ((t.nodes.get? pIdx).map TNodeM.L).getD 0
    let newL := pL + 1
    pure { t with
      nodes := t.nodes ++ [⟨ID, some pIdx, newL⟩],
      LRoot := if newL > t.LRoot then newL else t.LRoot,
      nodeMap := mapInsert t.nodeMap ID t.nodes.length }

/-- The level `THTree::pack(root, LRoot)` (lines 114-119) assigns to
arena node `i`: pack walks from the root handing `L` to each node and
`L - 1` to its children, so a node's packed level is `LRoot` minus one
per ancestor; the model follows the parent chain instead of the child
lists.  A fuel of `t.nodes.length` always suffices because every
parent sits strictly earlier in the arena. -/
def packLevelAux (t : THTreeM) : ℕ → ℕ → ℤ
  | 0, _ => t.LRoot
  | fuel + 1, i =>
      match (t.nodes.get? i).bind TNodeM.parentIdx with
      | none => t.LRoot
      | some p => packLevelAux t fuel p - 1

def packLevel (t : THTreeM) (i : ℕ) : ℤ := packLevelAux t t.nodes.length i

/-- The node list after `pack(root, LRoot)`: every node re-levelled. -/
def lockNodes (t : THTreeM) : List TNodeM :=
  (List.range t.nodes.length).map (fun i =>
    match t.nodes.get? i with
    | some nd => { nd with L := packLevel t i }
    | none => ⟨-1, none, 0⟩)

/-- `THTree::lock()` (lines 202-206): freeze, and repack the levels
unless the root already carries `LRoot`. -/
def lock (t : THTreeM) : THTreeM :=
  if ((t.nodes.get? 0).map TNodeM.L).getD 1 ≠ t.LRoot then
    { t with locked := true, nodes := lockNodes t }
  else { t with locked := true }

/-- `THTree::getNode(ID)` (lines 212-214) — a bare `nodeMap.at`. -/
def getNode (t : THTreeM) (ID : ℤ) : Except String ℕ :=
  mapAt t.nodeMap ID

/-- `THTree::getLevel(ID)` (lines 220-224): `getNode`, then the
`node != NULL` test — in the model, whether the mapped arena index
denotes a real node — with `-1` on the (dead) NULL branch. -/
def getLevel (t : THTreeM) (ID : ℤ) : Except String ℤ := do
  let idx ← getNode t ID
  match t.nodes.get? idx with
  | some nd => pure nd.L
  | none => pure (-1)

/-- `THTree::getParent(ID)` (lines 226-230), with `NULL` on the dead
branch. -/
def getParent (t : THTreeM) (ID : ℤ) : Except String (Option ℕ) := do
  let idx ← getNode t ID
  match t.nodes.get? idx with
  | some nd => pure nd.parentIdx
  | none => pure none

/-- A tree-construction call: `addRootNode ID` or `addNode ID parentID`. -/
inductive TreeOp where
  | root (ID : ℤ)
  | node (ID parentID : ℤ)
  deriving Repr, DecidableEq

def applyTreeOp (t : THTreeM) : TreeOp → Except String THTreeM
  | .root ID => addRootNode t ID
  | .node ID parentID => addNode t ID parentID

/-- A tree built by a `THTree(limitSize)` constructor call followed by
a sequence of `addRootNode`/`addNode` calls. -/
def buildTree (limitSize : ℤ) (ops : List TreeOp) : Except String THTreeM := do
  let t ← thtreeNew limitSize
  ops.foldlM applyTreeOp t

/-- The structural invariants every constructed tree satisfies. -/
structure TreeWF (t : THTreeM) : Prop where
  parent_lt : ∀ i nd p, t.nodes.get? i = some nd → nd.parentIdx = some p → p < i
  root_iff : ∀ i nd, t.nodes.get? i = some nd → (nd.parentIdx = none ↔ i = 0)
  level_root : ∀ nd, t.nodes.get? 0 = some nd → nd.L = 1
  level_child : ∀ i nd p pnd, t.nodes.get? i = some nd → nd.parentIdx = some p →
    t.nodes.get? p = some pnd → nd.L = pnd.L + 1
  level_pos : ∀ i nd, t.nodes.get? i = some nd → 1 ≤ nd.L
  level_le : ∀ i nd, t.nodes.get? i = some nd → nd.L ≤ t.LRoot
  lroot_attained : t.nodes ≠ [] → ∃ i nd, t.nodes.get? i = some nd ∧ nd.L = t.LRoot
  map_lt : ∀ kv ∈ t.nodeMap, kv.2 < t.nodes.length

lemma except_bind_ok {ε α β : Type} (a : α) (f : α → Except ε β) :
    (Except.ok a >>= f) = f a := rfl

lemma except_bind_error {ε α β : Type} (e : ε) (f : α → Except ε β) :
    ((Except.error e : Except ε α) >>= f) = Except.error e := rfl

lemma lookup_mem' : ∀ {m : List (ℤ × ℕ)} {k : ℤ} {v : ℕ},
    m.lookup k = some v → (k, v) ∈ m := by
  intro m
  induction m with
  | nil => intro k v h; simp [List.lookup] at h
  | cons kv rest ih =>
    intro k v h
    obtain ⟨k', v'⟩ := kv
    simp only [List.lookup] at h
    cases hbeq : k == k' with
    | true =>
      rw [hbeq] at h
      injection h with h
      have hk : k = k' := beq_iff_eq.mp hbeq
      rw [hk, h]
      exact List.mem_cons_self _ _
    | false =>
      rw [hbeq] at h
      exact List.mem_cons_of_mem _ (ih h)

lemma thtreeNew_wf {limitSize : ℤ} {t : THTreeM}
    (h : thtreeNew limitSize = .ok t) : TreeWF t := by
  unfold thtreeNew at h
  split at h
  · exact absurd h (by simp)
  · injection h with h
    subst h
    refine ⟨?_, ?_, ?_, ?_, ?_, ?_, ?_, ?_⟩ <;> (intros; simp_all)

lemma addRootNode_wf {t t' : THTreeM} {ID : ℤ} (hwf : TreeWF t)
    (h : addRootNode t ID = .ok t') : TreeWF t' := by
  unfold addRootNode at h
  split at h
  · exact absurd h (by simp)
  · split at h
    · exact absurd h (by simp)
    · next hnil =>
      rw [not_not] at hnil
      injection h with h
      subst h
      have hmap : mapInsert t.nodeMap ID 0 = t.nodeMap ++ [(ID, 0)] ∨
          mapInsert t.nodeMap ID 0 = t.nodeMap := by
        unfold mapInsert; split <;> simp
      refine ⟨?_, ?_, ?_, ?_, ?_, ?_, ?_, ?_⟩
      · intro i nd p hget hp
        cases i with
        | zero =>
          injection hget with hget
          rw [← hget] at hp
          exact absurd hp (by simp)
        | succ k => simp at hget
      · intro i nd hget
        cases i with
        | zero =>
          injection hget with hget
          rw [← hget]
          simp
        | succ k => simp at hget
      · intro nd hget
        injection hget with hget
        rw [← hget]
      · intro i nd p pnd hget hp _
        cases i with
        | zero =>
          injection hget with hget
          rw [← hget] at hp
          exact absurd hp (by simp)
        | succ k => simp at hget
      · intro i nd hget
        cases i with
        | zero =>
          injection hget with hget
          rw [← hget]
        | succ k => simp at hget
      · intro i nd hget
        cases i with
        | zero =>
          injection hget with hget
          rw [← hget]
        | succ k => simp at hget
      · intro _
        exact ⟨0, ⟨ID, none, 1⟩, rfl, rfl⟩
      · intro kv hkv
        rcases hmap with he | he <;> rw [he] at hkv
        · simp only [List.mem_append, List.mem_singleton] at hkv
          rcases hkv with hkv | hkv
          · have := hwf.map_lt kv hkv
            rw [hnil] at this
            simp at this
          · rw [hkv]; simp
        · have := hwf.map_lt kv hkv
          rw [hnil] at this
          simp at this

lemma addNode_wf {t t' : THTreeM} {ID parentID : ℤ} (hwf : TreeWF t)
    (h : addNode t ID parentID = .ok t') : TreeWF t' := by
  unfold addNode at h
  split at h
  · exact absurd h (by simp)
  · split at h
    · exact absurd h (by simp)
    · next hsz =>
      cases hat : mapAt t.nodeMap parentID with
      | error e => rw [hat, except_bind_error] at h; exact absurd h (by simp)
      | ok pIdx =>
        rw [hat, except_bind_ok] at h
        injection h with h
        subst h
        -- the mapped index denotes a real node
        have hpIdx : pIdx < t.nodes.length := by
          unfold mapAt at hat
          cases hlk : t.nodeMap.lookup parentID with
          | none => rw [hlk] at hat; exact absurd hat (by simp)
          | some v =>
            rw [hlk] at hat
            injection hat with hat
            rw [← hat]
            exact hwf.map_lt (parentID, v) (lookup_mem' hlk)
        have hsome : ∃ pnd, t.nodes.get? pIdx = some pnd := by
          rw [List.get?_eq_get hpIdx]
          exact ⟨_, rfl⟩
        obtain ⟨pnd, hpnd⟩ := hsome
        have hgetD : ((t.nodes.get? pIdx).map TNodeM.L).getD 0 = pnd.L := by
          rw [hpnd]; rfl
        rw [hgetD]
        set newNode : TNodeM := ⟨ID, some pIdx, pnd.L + 1⟩ with hnew
        have hlen : 0 < t.nodes.length := lt_of_le_of_lt (Nat.zero_le _) hpIdx
        have hget_lt : ∀ i, i < t.nodes.length →
            (t.nodes ++ [newNode]).get? i = t.nodes.get? i := fun i hi =>
          List.get?_append hi
        have hget_last : (t.nodes ++ [newNode]).get? t.nodes.length = some newNode := by
          rw [List.get?_append_right (le_refl _)]
          simp
        have hsplit : ∀ i nd, (t.nodes ++ [newNode]).get? i = some nd →
            (i < t.nodes.length ∧ t.nodes.get? i = some nd) ∨
            (i = t.nodes.length ∧ nd = newNode) := by
          intro i nd hget
          rcases Nat.lt_or_ge i t.nodes.length with hi | hi
          · exact Or.inl ⟨hi, by rw [← hget_lt i hi]; exact hget⟩
          · rcases Nat.lt_or_ge i (t.nodes.length + 1) with hi2 | hi2
            · have : i = t.nodes.length := by omega
              subst this
              rw [hget_last] at hget
              injection hget with hget
              exact Or.inr ⟨rfl, hget.symm⟩
            · rw [List.get?_eq_none.mpr (by simp; omega)] at hget
              exact Option.noConfusion hget
        have hLR : t.LRoot ≤ (if pnd.L + 1 > t.LRoot then pnd.L + 1 else t.LRoot) := by
          split <;> omega
        have hLR2 : pnd.L + 1 ≤ (if pnd.L + 1 > t.LRoot then pnd.L + 1 else t.LRoot) := by
          split <;> omega
        refine ⟨?_, ?_, ?_, ?_, ?_, ?_, ?_, ?_⟩
        · intro i nd p hget hp
          rcases hsplit i nd hget with ⟨hi, hold⟩ | ⟨hi, hnd⟩
          · exact hwf.parent_lt i nd p hold hp
          · subst hi
            rw [hnd] at hp
            injection hp with hp
            rw [← hp]
            exact hpIdx
        · intro i nd hget
          rcases hsplit i nd hget with ⟨hi, hold⟩ | ⟨hi, hnd⟩
          · exact hwf.root_iff i nd hold
          · subst hi
            rw [hnd]
            constructor
            · intro hcon; exact absurd hcon (by simp [hnew])
            · intro hcon; omega
        · intro nd hget
          rw [hget_lt 0 hlen] at hget
          exact hwf.level_root nd hget
        · intro i nd p pnd' hget hp hgetp
          have hplt : p < t.nodes.length := by
            rcases hsplit i nd hget with ⟨hi, hold⟩ | ⟨hi, hnd⟩
            · exact lt_trans (hwf.parent_lt i nd p hold hp) hi
            · rw [hnd] at hp
              injection hp with hp
              rw [← hp]
              exact hpIdx
          rw [hget_lt p hplt] at hgetp
          rcases hsplit i nd hget with ⟨hi, hold⟩ | ⟨hi, hnd⟩
          · exact hwf.level_child i nd p pnd' hold hp hgetp
          · rw [hnd] at hp ⊢
            injection hp with hp
            rw [← hp] at hgetp
            rw [hpnd] at hgetp
            injection hgetp with hgetp
            rw [← hgetp]
        · intro i nd hget
          rcases hsplit i nd hget with ⟨hi, hold⟩ | ⟨hi, hnd⟩
          · exact hwf.level_pos i nd hold
          · have h1 := hwf.level_pos pIdx pnd hpnd
            rw [hnd]
            show 1 ≤ pnd.L + 1
            omega
        · intro i nd hget
          rcases hsplit i nd hget with ⟨hi, hold⟩ | ⟨hi, hnd⟩
          · exact le_trans (hwf.level_le i nd hold) hLR
          · rw [hnd]
            exact hLR2
        · intro _
          by_cases hgt : pnd.L + 1 > t.LRoot
          · refine ⟨t.nodes.length, newNode, hget_last, ?_⟩
            simp only [hgt, if_true]
          · obtain ⟨i, nd, hget, hL⟩ := hwf.lroot_attained (by
              intro hcon
              rw [hcon] at hlen
              exact absurd hlen (by simp))
            have hi : i < t.nodes.length := by
              by_contra hge
              rw [List.get?_eq_none.mpr (not_lt.mp hge)] at hget
              exact Option.noConfusion hget
            refine ⟨i, nd, by rw [hget_lt i hi]; exact hget, ?_⟩
            simp only [hgt, if_false]
            exact hL
        · intro kv hkv
          simp only [mapInsert] at hkv
          by_cases hdup : (List.lookup ID t.nodeMap).isSome = true
          · rw [if_pos hdup] at hkv
            have := hwf.map_lt kv hkv
            simp only [List.length_append, List.length_singleton]
            omega
          · rw [if_neg hdup] at hkv
            simp only [List.mem_append, List.mem_singleton] at hkv
            rcases hkv with hkv | hkv
            · have := hwf.map_lt kv hkv
              simp only [List.length_append, List.length_singleton]
              omega
            · rw [hkv]
              simp only [List.length_append, List.length_singleton]
              omega

lemma foldTreeOps_wf : ∀ (ops : List TreeOp) (t0 t : THTreeM), TreeWF t0 →
    ops.foldlM applyTreeOp t0 = .ok t → TreeWF t := by
  intro ops
  induction ops with
  | nil =>
    intro t0 t h0 hfold
    simp only [List.foldlM_nil] at hfold
    injection hfold with hfold
    rw [← hfold]
    exact h0
  | cons op ops ih =>
    intro t0 t h0 hfold
    simp only [List.foldlM_cons] at hfold
    cases hstep : applyTreeOp t0 op with
    | error e =>
      rw [hstep, except_bind_error] at hfold
      exact absurd hfold (by simp)
    | ok t1 =>
      rw [hstep, except_bind_ok] at hfold
      have h1 : TreeWF t1 := by
        cases op with
        | root ID => exact addRootNode_wf h0 hstep
        | node ID parentID => exact addNode_wf h0 hstep
      exact ih t1 t h1 hfold

lemma buildTree_wf {limitSize : ℤ} {ops : List TreeOp} {t : THTreeM}
    (h : buildTree limitSize ops = .ok t) : TreeWF t := by
  unfold buildTree at h
  cases hnew : thtreeNew limitSize with
  | error e => rw [hnew, except_bind_error] at h; exact absurd h (by simp)
  | ok t0 =>
    rw [hnew, except_bind_ok] at h
    exact foldTreeOps_wf ops t0 t (thtreeNew_wf hnew) h

lemma packLevelAux_fuel_indep (t : THTreeM) (hwf : TreeWF t) :
    ∀ i f1 f2, i < f1 → i < f2 → packLevelAux t f1 i = packLevelAux t f2 i := by
  intro i
  induction i using Nat.strong_induction_on with
  | _ i ih =>
    intro f1 f2 h1 h2
    obtain ⟨g1, rfl⟩ : ∃ g, f1 = g + 1 := ⟨f1 - 1, by omega⟩
    obtain ⟨g2, rfl⟩ : ∃ g, f2 = g + 1 := ⟨f2 - 1, by omega⟩
    unfold packLevelAux
    cases hnd : (t.nodes.get? i).bind TNodeM.parentIdx with
    | none => rfl
    | some p =>
      have hp : p < i := by
        cases hget : t.nodes.get? i with
        | none => rw [hget] at hnd; exact absurd hnd (by simp)
        | some nd =>
          rw [hget] at hnd
          exact hwf.parent_lt i nd p hget hnd
      show packLevelAux t g1 p - 1 = packLevelAux t g2 p - 1
      rw [ih p hp g1 g2 (by omega) (by omega)]

/-- For a constructed tree, the pre-lock level of a node is its depth
and `pack` assigns it `LRoot - depth + 1`. -/
lemma packLevel_eq (t : THTreeM) (hwf : TreeWF t) :
    ∀ i nd, t.nodes.get? i = some nd → packLevel t i = t.LRoot - nd.L + 1 := by
  intro i
  induction i using Nat.strong_induction_on with
  | _ i ih =>
    intro nd hget
    have hi : i < t.nodes.length := by
      by_contra hge
      rw [List.get?_eq_none.mpr (not_lt.mp hge)] at hget
      exact Option.noConfusion hget
    obtain ⟨k, hk⟩ : ∃ k, t.nodes.length = k + 1 := ⟨t.nodes.length - 1, by omega⟩
    unfold packLevel
    rw [hk]
    unfold packLevelAux
    cases hpar : nd.parentIdx with
    | none =>
      have hscrut : (t.nodes.get? i).bind TNodeM.parentIdx = none := by
        rw [hget]
        exact hpar
      rw [hscrut]
      show t.LRoot = t.LRoot - nd.L + 1
      have hroot : i = 0 := (hwf.root_iff i nd hget).mp hpar
      rw [hroot] at hget
      have hL := hwf.level_root nd hget
      omega
    | some p =>
      have hscrut : (t.nodes.get? i).bind TNodeM.parentIdx = some p := by
        rw [hget]
        exact hpar
      rw [hscrut]
      show packLevelAux t k p - 1 = t.LRoot - nd.L + 1
      have hp : p < i := hwf.parent_lt i nd p hget hpar
      have hplen : p < t.nodes.length := lt_trans hp hi
      have hpget : ∃ pnd, t.nodes.get? p = some pnd := by
        rw [List.get?_eq_get hplen]
        exact ⟨_, rfl⟩
      obtain ⟨pnd, hpnd⟩ := hpget
      have hfuel : packLevelAux t k p = packLevel t p := by
        unfold packLevel
        exact packLevelAux_fuel_indep t hwf p k t.nodes.length (by omega) hplen
      rw [hfuel, ih p hp pnd hpnd]
      have hchild := hwf.level_child i nd p pnd hget hpar hpnd
      omega

/-- Index-wise description of the locked node list: every slot keeps
its node with the level replaced by `LRoot - preLevel + 1` (also when
`lock` skips `pack` — that happens only for the single-node tree,
where the pre-lock level 1 already equals `LRoot - 1 + 1`). -/
lemma lock_get? (t : THTreeM) (hwf : TreeWF t) (i : ℕ) :
    (lock t).nodes.get? i
      = (t.nodes.get? i).map (fun nd => { nd with L := t.LRoot - nd.L + 1 }) := by
  unfold lock
  split
  · -- pack branch
    show (lockNodes t).get? i = _
    unfold lockNodes
    rw [List.get?_map]
    cases hget : t.nodes.get? i with
    | none =>
      have hge : t.nodes.length ≤ i := by
        by_contra hlt
        rw [List.get?_eq_get (not_le.mp hlt)] at hget
        exact Option.noConfusion hget
      rw [List.get?_eq_none.mpr (by simpa using hge)]
      rfl
    | some nd =>
      have hi : i < t.nodes.length := by
        by_contra hge
        rw [List.get?_eq_none.mpr (not_lt.mp hge)] at hget
        exact Option.noConfusion hget
      rw [List.get?_range hi]
      simp only [Option.map_some', Option.map_some]
      rw [hget, packLevel_eq t hwf i nd hget]
  · -- skip branch: the root already carries LRoot, so LRoot = 1 and
    -- the tree is the lone root
    next hcond =>
    rw [not_not] at hcond
    show t.nodes.get? i = _
    cases hget : t.nodes.get? i with
    | none => rfl
    | some nd =>
      have hi : i < t.nodes.length := by
        by_contra hge
        rw [List.get?_eq_none.mpr (not_lt.mp hge)] at hget
        exact Option.noConfusion hget
      have hlen : 0 < t.nodes.length := lt_of_le_of_lt (Nat.zero_le _) hi
      have hroot : ∃ rnd, t.nodes.get? 0 = some rnd := by
        rw [List.get?_eq_get hlen]
        exact ⟨_, rfl⟩
      obtain ⟨rnd, hrnd⟩ := hroot
      have hL1 : rnd.L = 1 := hwf.level_root rnd hrnd
      have hLR1 : t.LRoot = 1 := by
        rw [hrnd] at hcond
        simp only [Option.map_some', Option.getD_some] at hcond
        rw [← hcond, hL1]
      have hi0 : i = 0 := by
        by_contra hne
        obtain ⟨p, hp⟩ : ∃ p, nd.parentIdx = some p := by
          cases hpar : nd.parentIdx with
          | none => exact absurd ((hwf.root_iff i nd hget).mp hpar) hne
          | some p => exact ⟨p, rfl⟩
        have hplen : p < t.nodes.length := lt_trans (hwf.parent_lt i nd p hget hp) hi
        obtain ⟨pnd, hpnd⟩ : ∃ pnd, t.nodes.get? p = some pnd := by
          rw [List.get?_eq_get hplen]
          exact ⟨_, rfl⟩
        have h1 := hwf.level_child i nd p pnd hget hp hpnd
        have h2 := hwf.level_pos p pnd hpnd
        have h3 := hwf.level_le i nd hget
        omega
      subst hi0
      rw [hrnd] at hget
      injection hget with hget
      subst hget
      simp only [Option.map_some']
      obtain ⟨id0, par0, L0⟩ := rnd
      simp only [TNodeM.L] at hL1
      simp only [Option.some.injEq, TNodeM.mk.injEq, true_and]
      omega

/-- C8 (amended).  For every tree built with `addRootNode`/`addNode`,
after `lock()`: every node's level becomes `LRoot - depth + 1` (the
pre-lock level is the node's depth, root depth 1), so the root's level
equals `LRoot`, which is the maximum depth observed; every child's
level is its parent's level minus 1; every node at the MAXIMUM depth
(in particular every deepest leaf) gets level 1; but a node at a
smaller depth — e.g. a shallow leaf of an unbalanced tree — gets a
level strictly greater than 1, contradicting the claim's "every leaf
node has level 1 for every tree shape". -/
theorem thtree_lock_levels {limitSize : ℤ} {ops : List TreeOp} {t : THTreeM}
    (h : buildTree limitSize ops = .ok t) :
    (∀ i nd, t.nodes.get? i = some nd →
      (lock t).nodes.get? i = some { nd with L := t.LRoot - nd.L + 1 }) ∧
    (∀ nd, t.nodes.get? 0 = some nd →
      (lock t).nodes.get? 0 = some { nd with L := t.LRoot }) ∧
    (∀ i nd, t.nodes.get? i = some nd → nd.L ≤ t.LRoot) ∧
    (t.nodes ≠ [] → ∃ i nd, t.nodes.get? i = some nd ∧ nd.L = t.LRoot) ∧
    (∀ i nd p pnd, (lock t).nodes.get? i = some nd → nd.parentIdx = some p →
      (lock t).nodes.get? p = some pnd → nd.L = pnd.L - 1) ∧
    (∀ i nd, t.nodes.get? i = some nd → nd.L = t.LRoot →
      (lock t).nodes.get? i = some { nd with L := 1 }) ∧
    (∀ i nd nd', t.nodes.get? i = some nd → nd.L < t.LRoot →
      (lock t).nodes.get? i = some nd' → 1 < nd'.L) := by
  have hwf := buildTree_wf h
  have hmain : ∀ i nd, t.nodes.get? i = some nd →
      (lock t).nodes.get? i = some { nd with L := t.LRoot - nd.L + 1 } := by
    intro i nd hget
    rw [lock_get? t hwf i, hget]
    rfl
  refine ⟨hmain, ?_, hwf.level_le, hwf.lroot_attained, ?_, ?_, ?_⟩
  · intro nd hget
    have h1 := hmain 0 nd hget
    have hL := hwf.level_root nd hget
    have : t.LRoot - nd.L + 1 = t.LRoot := by omega
    rw [this] at h1
    exact h1
  · intro i nd p pnd hget hp hgetp
    rw [lock_get? t hwf i] at hget
    rw [lock_get? t hwf p] at hgetp
    cases hget0 : t.nodes.get? i with
    | none => rw [hget0] at hget; exact absurd hget (by simp)
    | some nd0 =>
      rw [hget0] at hget
      simp only [Option.map_some'] at hget
      injection hget with hget
      cases hgetp0 : t.nodes.get? p with
      | none => rw [hgetp0] at hgetp; exact absurd hgetp (by simp)
      | some pnd0 =>
        rw [hgetp0] at hgetp
        simp only [Option.map_some'] at hgetp
        injection hgetp with hgetp
        have hpar0 : nd0.parentIdx = some p := by
          rw [← hget] at hp
          exact hp
        have hchild := hwf.level_child i nd0 p pnd0 hget0 hpar0 hgetp0
        rw [← hget, ← hgetp]
        show t.LRoot - nd0.L + 1 = t.LRoot - pnd0.L + 1 - 1
        omega
  · intro i nd hget hL
    have h1 := hmain i nd hget
    have : t.LRoot - nd.L + 1 = 1 := by omega
    rw [this] at h1
    exact h1
  · intro i nd nd' hget hL hget'
    have h1 := hmain i nd hget
    rw [h1] at hget'
    injection hget' with hget'
    rw [← hget']
    show 1 < t.LRoot - nd.L + 1
    omega

/-- The unbalanced four-node tree of the C8 counterexample: root 0
with children 1 and 2, node 3 under node 1.  Node 2 is a leaf at
depth 2 while the maximum depth is 3. -/
def cexTreeOps : List TreeOp := [.root 0, .node 1 0, .node 2 0, .node 3 1]

/-- The arena the counterexample ops build. -/
def cexTree : THTreeM :=
  { limitSize := 4,
    nodes := [⟨0, none, 1⟩, ⟨1, some 0, 2⟩, ⟨2, some 0, 2⟩, ⟨3, some 1, 3⟩],
    LRoot := 3,
    nodeMap := [(0, 0), (1, 1), (2, 2), (3, 3)],
    locked := false }

/-- C8 (counterexample).  On the unbalanced tree, after `lock()` the
leaf node 2 (no node has it as parent) carries level `2`, not `1`:
"every leaf node has level 1" fails for trees whose leaves sit at
different depths. -/
theorem thtree_shallow_leaf_level_ne_one :
    buildTree 4 cexTreeOps = .ok cexTree ∧
    (lock cexTree).nodes.get? 2 = some ⟨2, some 0, 2⟩ ∧
    (∀ nd ∈ (lock cexTree).nodes, nd.parentIdx ≠ some 2) ∧
    ((2 : ℤ) ≠ 1) := by
  refine ⟨by rfl, by rfl, by decide, by decide⟩

/-- The balanced three-node arena (root 0 with children 1 and 2),
shared concrete input of several witnesses. -/
def gridTree3 : THTreeM :=
  { limitSize := 3,
    nodes := [⟨0, none, 1⟩, ⟨1, some 0, 2⟩, ⟨2, some 0, 2⟩],
    LRoot := 2, nodeMap := [(0, 0), (1, 1), (2, 2)], locked := false }

/-- Witness for C8 (amended): the balanced three-node tree; the
deepest leaf, node index 2 at depth 2, receives locked level 1. -/
theorem thtree_lock_levels_witness :
    (lock gridTree3).nodes.get? 2 = some ⟨2, some 0, 1⟩ := by
  have hb : buildTree 3 [.root 0, .node 1 0, .node 2 0] = .ok gridTree3 := by rfl
  have h := (thtree_lock_levels hb).1 2 ⟨2, some 0, 2⟩ (by rfl)
  simpa [gridTree3] using h

/-! ## GroupRegionSelectionPolicy (FitnessPolicy.h unit, GroupRegionSelectionPolicy)

`apply(S, tree, ID)` collects the walked node's ancestry (excluding
the root), then `internalLoop` descends from the root: at each level it
finds the child that tops the remaining ancestry, decodes the child's
position into per-group coordinates (`coord[g] = pos / K^g; pos %=
K^g`, high groups first), shrinks every partition interval `[a, b]` of
the current region to `[a + c_g·δ, a + (c_g+1)·δ]` with `δ = (b-a)/K`
(the last segment keeps `b`), and recurses into that child.  Dimension
IDs are the positions `0..n-1`, so `Region::operator[]` is positional;
the `Dimension` entries of a region are never modified, only the
`Partition` entries. -/

/-- `t_node::getChildren()`: the arena indices whose parent is `i`, in
creation (= `push_back`) order. -/
def childrenIdx (t : THTreeM) (i : ℕ) : List ℕ :=
  (List.range t.nodes.length).filter
    (fun j => ((t.nodes.get? j).bind TNodeM.parentIdx) = some i)

/-- The coordinate-decoding loop of `internalLoop` (FitnessPolicy.h
lines 157-165): for `g = nGroups-1 .. 0`, `base = K^g`; when `base ≤
pos`, `coord[g] = pos / base` and `pos %= base`; otherwise `coord[g]`
stays 0.  The returned list has `coord[g]` at index `g`. -/
def coordList (K : ℕ) : ℕ → ℕ → List ℕ
  | 0, _ => []
  | g + 1, pos =>
      let base := K ^ g
      if base ≤ pos then coordList K g (pos % base) ++ [pos / base]
      else coordList K g pos ++ [0]

/-- The partition-shrinking loop of `internalLoop` (lines 166-179):
walk the dimensions in ID order carrying the group cursor `g`
(advanced whenever `(d+1) % dimPerGroup == 0`); each partition
`[a, b]` becomes `[a + c_g·δ, a + (c_g+1)·δ]`, `δ = (b-a)/K`, with the
last segment (`c_g ≥ K-1`) keeping the original upper bound `b`.
Dimensions are untouched.  The C++ reads `coord[g]` from the
`nGroups`-element stack array and evaluates `(d+1) % dimPerGroup`:
when the cursor runs past the array (which happens whenever `nGroups`
does not divide the dimension count) the read is out of bounds, and
when `dimPerGroup = 0` the modulo divides by zero — both undefined
behavior, modelled as an error value, never as a made-up result. -/
def grspSubRegion (K dimPerGroup : ℕ) (coord : List ℕ) :
    RegionQ → ℕ → ℕ → Except String RegionQ
  | [], _, _ => .ok []
  | rd :: rest, d, g =>
      match coord.get? g with
      | none => .error "undefined behavior"
      | some c =>
        if dimPerGroup = 0 then .error "undefined behavior"
        else
          let partition := rd.part
          let delta := (partition.endPoint - partition.startPoint) / (K : ℚ)
          let minimum := partition.startPoint + (c : ℚ) * delta
          match grspSubRegion K dimPerGroup coord rest (d + 1)
              (if (d + 1) % dimPerGroup = 0 then g + 1 else g) with
          | .error e => .error e
          | .ok rest' =>
              .ok ({ rd with part :=
                ⟨minimum, if c < K - 1 then minimum + delta
                          else partition.endPoint⟩ } :: rest')

/-- `GroupRegionSelectionPolicy::internalLoop` (lines 146-187),
fuel-indexed (`hierarchy` shrinks by one entry per recursion, and
`apply` passes enough fuel).  `.ok none` models the `return NULL`
paths.  The `.error` paths mark undefined behavior of the source:
`(*hierarchy)[top]` with an empty hierarchy (`top = size-1`
underflows; only read when the child loop iterates), the VLA
`int coord[nGroups]` and the division `nDim / nGroups` with
`nGroups = 0`, and the out-of-bounds/zero-modulo cases inside the
shrinking loop (see `grspSubRegion`). -/
def internalLoop (t : THTreeM) (nGroups K : ℕ) :
    ℕ → RegionQ → List ℤ → ℕ → ℤ → Except String (Option RegionQ)
  | 0, _, _, _, _ => .ok none
  | fuel + 1, region, hierarchy, nodeIdx, ID =>
      match t.nodes.get? nodeIdx with
      | none => .ok none
      | some node =>
        if node.ID = ID then .ok (some region)
        else
          let children := childrenIdx t nodeIdx
          match hierarchy.getLast? with
          | none => if children = [] then .ok none else .error "undefined behavior"
          | some topID =>
            match children.findIdx?
                (fun cIdx => ((t.nodes.get? cIdx).map TNodeM.ID) = some topID) with
            | none => .ok none
            | some childPos =>
              if nGroups = 0 then .error "undefined behavior"
              else
                let coord := coordList K nGroups childPos
                let dimPerGroup := region.length / nGroups
                match grspSubRegion K dimPerGroup coord region 0 0 with
                | .error e => .error e
                | .ok sub =>
                    internalLoop t nGroups K fuel sub hierarchy.dropLast
                      (children.getD childPos 0) ID

/-- The ancestry walk of `apply` (lines 216-221): push the IDs of the
walked node's proper ancestors, stopping before the root (arena slot
0). -/
def ancestorIDs (t : THTreeM) : ℕ → ℕ → List ℤ
  | 0, _ => []
  | fuel + 1, i =>
      match (t.nodes.get? i).bind TNodeM.parentIdx with
      | none => []
      | some p =>
          if p = 0 then []
          else
            match t.nodes.get? p with
            | none => []
            | some pnd => pnd.ID :: ancestorIDs t fuel p

/-- `GroupRegionSelectionPolicy::apply(S, thTree, ID)` (lines
211-226): `getNode` (which throws `std::out_of_range` for an unknown
ID, so the `node == NULL` guard is dead), the ancestry walk, and the
recursive descent from the root. -/
def grspApply (t : THTreeM) (nGroups K : ℕ) (S : RegionQ) (ID : ℤ) :
    Except String (Option RegionQ) := do
  let idx ← getNode t ID
  match t.nodes.get? idx with
  | none => pure none
  | some node =>
      let hierarchy := node.ID :: ancestorIDs t t.nodes.length idx
      internalLoop t nGroups K (hierarchy.length + 1) S hierarchy 0 ID

lemma coordList_lt (K : ℕ) (hK : 1 ≤ K) :
    ∀ g pos, pos < K ^ g → ∀ c ∈ coordList K g pos, c < K := by
  intro g
  induction g with
  | zero => intro pos hpos c hc; simp [coordList] at hc
  | succ g ih =>
    intro pos hpos c hc
    have hbase : 0 < K ^ g := Nat.pos_pow_of_pos g hK
    unfold coordList at hc
    dsimp only at hc
    split at hc
    · next hle =>
      simp only [List.mem_append, List.mem_singleton] at hc
      rcases hc with hc | hc
      · exact ih (pos % K ^ g) (Nat.mod_lt pos hbase) c hc
      · rw [hc]
        rw [Nat.div_lt_iff_lt_mul hbase]
        rw [pow_succ'] at hpos
        exact hpos
    · next hle =>
      simp only [List.mem_append, List.mem_singleton] at hc
      rcases hc with hc | hc
      · exact ih pos (not_le.mp hle) c hc
      · rw [hc]; exact hK

lemma coordList_length (K : ℕ) : ∀ g pos, (coordList K g pos).length = g := by
  intro g
  induction g with
  | zero => intro pos; rfl
  | succ g ih =>
    intro pos
    unfold coordList
    dsimp only
    split <;> simp [ih]

/-- Interval arithmetic of one shrink step: with `0 ≤ c ≤ K-1` and a
well-formed input interval, the new interval is well-formed and nested
inside the old one. -/
lemma shrink_core {a b : ℚ} {K c : ℕ} (hK : 1 ≤ K) (hc : c < K) (hab : a ≤ b) :
    a ≤ a + (c : ℚ) * ((b - a) / (K : ℚ)) ∧
    (a + (c : ℚ) * ((b - a) / (K : ℚ)) ≤
      (if c < K - 1 then a + (c : ℚ) * ((b - a) / (K : ℚ)) + (b - a) / (K : ℚ) else b)) ∧
    (if c < K - 1 then a + (c : ℚ) * ((b - a) / (K : ℚ)) + (b - a) / (K : ℚ) else b) ≤ b := by
  have hKQ : (0 : ℚ) < (K : ℚ) := by exact_mod_cast hK
  have hδ : (0 : ℚ) ≤ (b - a) / (K : ℚ) := div_nonneg (by linarith) (le_of_lt hKQ)
  have hKδ : (K : ℚ) * ((b - a) / (K : ℚ)) = b - a := by
    field_simp
  have hcQ : (c : ℚ) + 1 ≤ (K : ℚ) := by exact_mod_cast hc
  have hcδ : ((c : ℚ) + 1) * ((b - a) / (K : ℚ)) ≤ b - a := by
    calc ((c : ℚ) + 1) * ((b - a) / (K : ℚ))
        ≤ (K : ℚ) * ((b - a) / (K : ℚ)) := by
          exact mul_le_mul_of_nonneg_right hcQ hδ
      _ = b - a := hKδ
  refine ⟨?_, ?_, ?_⟩
  · have : (0 : ℚ) ≤ (c : ℚ) * ((b - a) / (K : ℚ)) :=
      mul_nonneg (by positivity) hδ
    linarith
  · split
    · linarith
    · nlinarith [mul_nonneg (show (0:ℚ) ≤ (c:ℚ) by positivity) hδ]
  · split
    · nlinarith
    · linarith

lemma grspSubRegion_shrinks (K dimPerGroup : ℕ) (coord : List ℕ)
    (hK : 1 ≤ K) (hc : ∀ c ∈ coord, c < K) :
    ∀ (region : RegionQ) (d g : ℕ) (sub : RegionQ),
      grspSubRegion K dimPerGroup coord region d g = .ok sub →
      ∀ (k : ℕ) (rd' : RegionDim), sub.get? k = some rd' →
      ∃ rd, region.get? k = some rd ∧ rd'.dim = rd.dim ∧
        (rd.part.startPoint ≤ rd.part.endPoint →
          rd.part.startPoint ≤ rd'.part.startPoint ∧
          rd'.part.startPoint ≤ rd'.part.endPoint ∧
          rd'.part.endPoint ≤ rd.part.endPoint) := by
  intro region
  induction region with
  | nil =>
    intro d g sub hok k rd' hget
    injection hok with hok
    rw [← hok] at hget
    exact Option.noConfusion hget
  | cons rd0 rest ih =>
    intro d g sub hok k rd' hget
    unfold grspSubRegion at hok
    cases hcg : coord.get? g with
    | none => rw [hcg] at hok; exact absurd hok (by simp)
    | some c =>
      rw [hcg] at hok
      dsimp only at hok
      split at hok
      · exact absurd hok (by simp)
      · cases hrec : grspSubRegion K dimPerGroup coord rest (d + 1)
            (if (d + 1) % dimPerGroup = 0 then g + 1 else g) with
        | error e => rw [hrec] at hok; exact absurd hok (by simp)
        | ok rest' =>
          rw [hrec] at hok
          injection hok with hok
          rw [← hok] at hget
          cases k with
          | zero =>
            injection hget with hget
            refine ⟨rd0, rfl, ?_⟩
            rw [← hget]
            refine ⟨rfl, ?_⟩
            intro hab
            have hcK : c < K := hc c (List.get?_mem hcg)
            have h := shrink_core hK hcK hab
            exact ⟨h.1, h.2.1, h.2.2⟩
          | succ k' =>
            exact ih (d + 1) (if (d + 1) % dimPerGroup = 0 then g + 1 else g)
              rest' hrec k' rd' hget

lemma grspSubRegion_length (K dimPerGroup : ℕ) (coord : List ℕ) :
    ∀ (region : RegionQ) (d g : ℕ) (sub : RegionQ),
      grspSubRegion K dimPerGroup coord region d g = .ok sub →
      sub.length = region.length := by
  intro region
  induction region with
  | nil =>
    intro d g sub hok
    injection hok with hok
    rw [← hok]
  | cons rd0 rest ih =>
    intro d g sub hok
    unfold grspSubRegion at hok
    cases hcg : coord.get? g with
    | none => rw [hcg] at hok; exact absurd hok (by simp)
    | some c =>
      rw [hcg] at hok
      dsimp only at hok
      split at hok
      · exact absurd hok (by simp)
      · cases hrec : grspSubRegion K dimPerGroup coord rest (d + 1)
            (if (d + 1) % dimPerGroup = 0 then g + 1 else g) with
        | error e => rw [hrec] at hok; exact absurd hok (by simp)
        | ok rest' =>
          rw [hrec] at hok
          injection hok with hok
          rw [← hok]
          simp only [List.length_cons]
          rw [ih (d + 1) _ rest' hrec]

/-- The invariant `internalLoop` maintains: same dimensions as the
search space, partitions nested inside them and well-formed. -/
def RegionInv (S region : RegionQ) : Prop :=
  region.length = S.length ∧
  ∀ k rd srd, region.get? k = some rd → S.get? k = some srd →
    rd.dim = srd.dim ∧ srd.dim.startPoint ≤ rd.part.startPoint ∧
    rd.part.startPoint ≤ rd.part.endPoint ∧ rd.part.endPoint ≤ srd.dim.endPoint

lemma grspSubRegion_inv {S : RegionQ} (K dimPerGroup : ℕ) (coord : List ℕ)
    (hK : 1 ≤ K) (hc : ∀ c ∈ coord, c < K) (region sub : RegionQ)
    (hok : grspSubRegion K dimPerGroup coord region 0 0 = .ok sub)
    (hinv : RegionInv S region) : RegionInv S sub := by
  constructor
  · rw [grspSubRegion_length K dimPerGroup coord region 0 0 sub hok]
    exact hinv.1
  · intro k rd srd hget hS
    obtain ⟨rd0, hget0, hdim, hshrink⟩ :=
      grspSubRegion_shrinks K dimPerGroup coord hK hc region 0 0 sub hok k rd hget
    obtain ⟨hdim0, h1, h2, h3⟩ := hinv.2 k rd0 srd hget0 hS
    obtain ⟨s1, s2, s3⟩ := hshrink h2
    exact ⟨hdim.trans hdim0, le_trans h1 s1, s2, le_trans s3 h3⟩

lemma findIdx?_lt_length {α : Type} (p : α → Bool) :
    ∀ (l : List α) (i : ℕ), l.findIdx? p = some i → i < l.length := by
  intro l
  induction l with
  | nil => intro i h; exact Option.noConfusion h
  | cons x xs ih =>
    intro i h
    rw [List.findIdx?_cons] at h
    split at h
    · injection h with h
      rw [← h]
      simp only [List.length_cons]
      omega
    · rw [List.findIdx?_succ] at h
      simp only [Option.map_eq_some'] at h
      obtain ⟨j, hj, hij⟩ := h
      have := ih j hj
      rw [← hij]
      simp only [List.length_cons]
      omega

lemma findIdx?_getD {α : Type} (p : α → Bool) (d : α) :
    ∀ (l : List α) (i : ℕ), l.findIdx? p = some i → p (l.getD i d) = true := by
  intro l
  induction l with
  | nil => intro i h; exact Option.noConfusion h
  | cons x xs ih =>
    intro i h
    rw [List.findIdx?_cons] at h
    split at h
    · next hpx =>
      injection h with h
      rw [← h]
      exact hpx
    · rw [List.findIdx?_succ] at h
      simp only [Option.map_eq_some'] at h
      obtain ⟨j, hj, hij⟩ := h
      rw [← hij]
      exact ih j hj

lemma internalLoop_inv (t : THTreeM) (nGroups K : ℕ) (S : RegionQ)
    (hK : 1 ≤ K)
    (hfan : ∀ i, (childrenIdx t i).length ≤ K ^ nGroups) :
    ∀ fuel region hierarchy nodeIdx ID R, RegionInv S region →
      internalLoop t nGroups K fuel region hierarchy nodeIdx ID = .ok (some R) →
      RegionInv S R := by
  intro fuel
  induction fuel with
  | zero =>
    intro region hierarchy nodeIdx ID R hinv h
    injection h with h
    exact Option.noConfusion h
  | succ f ih =>
    intro region hierarchy nodeIdx ID R hinv h
    unfold internalLoop at h
    cases hnode : t.nodes.get? nodeIdx with
    | none =>
      rw [hnode] at h
      injection h with h
      exact Option.noConfusion h
    | some node =>
      rw [hnode] at h
      dsimp only at h
      split at h
      · injection h with h
        injection h with h
        rw [← h]
        exact hinv
      · cases htop : hierarchy.getLast? with
        | none =>
          rw [htop] at h
          dsimp only at h
          split at h
          · injection h with h
            exact Option.noConfusion h
          · exact absurd h (by simp)
        | some topID =>
          rw [htop] at h
          dsimp only at h
          cases hfind : (childrenIdx t nodeIdx).findIdx?
              (fun cIdx => ((t.nodes.get? cIdx).map TNodeM.ID) = some topID) with
          | none =>
            rw [hfind] at h
            injection h with h
            exact Option.noConfusion h
          | some childPos =>
            rw [hfind] at h
            dsimp only at h
            split at h
            · exact absurd h (by simp)
            · cases hsub : grspSubRegion K (region.length / nGroups)
                  (coordList K nGroups childPos) region 0 0 with
              | error e => rw [hsub] at h; exact absurd h (by simp)
              | ok sub =>
                rw [hsub] at h
                have hpos : childPos < (childrenIdx t nodeIdx).length :=
                  findIdx?_lt_length _ _ _ hfind
                have hbound : childPos < K ^ nGroups :=
                  lt_of_lt_of_le hpos (hfan nodeIdx)
                have hcoord := coordList_lt K hK nGroups childPos hbound
                exact ih sub _ _ _ _
                  (grspSubRegion_inv _ _ _ hK hcoord region sub hsub hinv) h

/-- The shrinking loop never reaches undefined behavior when the walk
starts at `d = g = 0` with a cursor law `d = dimPerGroup·g + r`,
`r < dimPerGroup`, and the dimension count bounded by
`coord.length · dimPerGroup` — the in-bounds regime of the C++
stack-array read. -/
lemma grspSubRegion_no_error (K dpg : ℕ) (coord : List ℕ) (hdpg : 1 ≤ dpg) :
    ∀ (region : RegionQ) (d q r : ℕ), d = dpg * q + r → r < dpg →
      d + region.length ≤ coord.length * dpg →
      ∀ e, grspSubRegion K dpg coord region d q ≠ .error e := by
  intro region
  induction region with
  | nil =>
    intro d q r _ _ _ e h
    exact Except.noConfusion
      (show (Except.ok ([] : RegionQ) : Except String RegionQ) = .error e from h)
  | cons rd rest ih =>
    intro d q r hd hr hle e h
    simp only [List.length_cons] at hle
    have hq : q < coord.length := by
      by_contra hge
      push_neg at hge
      have h1 : coord.length * dpg ≤ q * dpg := Nat.mul_le_mul_right dpg hge
      have h2 : dpg * q = q * dpg := Nat.mul_comm dpg q
      linarith
    obtain ⟨c, hc⟩ : ∃ c, coord.get? q = some c := by
      rw [List.get?_eq_get hq]; exact ⟨_, rfl⟩
    unfold grspSubRegion at h
    rw [hc] at h
    dsimp only at h
    rw [if_neg (by omega)] at h
    by_cases hstep : r + 1 = dpg
    · have hmod : (d + 1) % dpg = 0 := by
        have hform : d + 1 = dpg * (q + 1) := by
          rw [hd, Nat.mul_succ, ← hstep]; ring
        rw [hform]
        exact Nat.mul_mod_right dpg (q + 1)
      rw [if_pos hmod] at h
      cases hrec : grspSubRegion K dpg coord rest (d + 1) (q + 1) with
      | error e1 =>
        exact ih (d + 1) (q + 1) 0
          (by rw [hd, Nat.mul_succ, ← hstep]; ring) hdpg (by linarith) e1 hrec
      | ok rest1 =>
        rw [hrec] at h
        exact absurd h (by simp)
    · have hlt : r + 1 < dpg := by omega
      have hmod : ¬ (d + 1) % dpg = 0 := by
        have hform : d + 1 = dpg * q + (r + 1) := by
          rw [hd]; exact Nat.add_assoc _ _ _
        rw [hform, Nat.mul_add_mod, Nat.mod_eq_of_lt hlt]
        omega
      rw [if_neg hmod] at h
      cases hrec : grspSubRegion K dpg coord rest (d + 1) q with
      | error e1 =>
        exact ih (d + 1) q (r + 1)
          (by rw [hd]; exact Nat.add_assoc _ _ _) hlt (by linarith) e1 hrec
      | ok rest1 =>
        rw [hrec] at h
        exact absurd h (by simp)

/-- Descending from the root with `nGroups ≥ 1`, a region whose
dimension count `nGroups` divides, and a hierarchy headed by the
walked node's own ID (as `apply` always builds it), `internalLoop`
never reaches undefined behavior: the cursor stays inside the
`nGroups`-element coordinate array, no division by zero occurs, and
the hierarchy is consumed before the underflowing `(*hierarchy)[top]`
read could fire. -/
lemma internalLoop_no_ub (t : THTreeM) (nGroups K : ℕ) (hn : 1 ≤ nGroups) (ID : ℤ) :
    ∀ (fuel : ℕ) (region : RegionQ) (hierarchy : List ℤ) (nodeIdx : ℕ),
      nGroups ∣ region.length →
      (hierarchy = [] → ∀ nd, t.nodes.get? nodeIdx = some nd → nd.ID = ID) →
      (hierarchy ≠ [] → hierarchy.head? = some ID) →
      ∀ e, internalLoop t nGroups K fuel region hierarchy nodeIdx ID ≠ .error e := by
  intro fuel
  induction fuel with
  | zero =>
    intro region hierarchy nodeIdx _ _ _ e h
    exact Except.noConfusion
      (show (Except.ok (none : Option RegionQ) : Except String (Option RegionQ))
        = .error e from h)
  | succ f ih =>
    intro region hierarchy nodeIdx hdvd hempty hhead e h
    unfold internalLoop at h
    cases hnode : t.nodes.get? nodeIdx with
    | none =>
      rw [hnode] at h
      exact Except.noConfusion
        (show (Except.ok (none : Option RegionQ) : Except String (Option RegionQ))
          = .error e from h)
    | some node =>
      rw [hnode] at h
      dsimp only at h
      by_cases hid : node.ID = ID
      · rw [if_pos hid] at h
        exact Except.noConfusion
          (show (Except.ok (some region) : Except String (Option RegionQ))
            = .error e from h)
      · rw [if_neg hid] at h
        cases hierarchy with
        | nil => exact hid (hempty rfl node hnode)
        | cons a tail =>
          have ha : a = ID := by
            have hh := hhead (List.cons_ne_nil a tail)
            injection hh
          subst ha
          cases hlast : (a :: tail).getLast? with
          | none =>
            rw [List.getLast?_eq_none_iff] at hlast
            exact List.noConfusion hlast
          | some topID =>
            rw [hlast] at h
            dsimp only at h
            cases hfind : (childrenIdx t nodeIdx).findIdx?
                (fun cIdx => ((t.nodes.get? cIdx).map TNodeM.ID) = some topID) with
            | none =>
              rw [hfind] at h
              exact Except.noConfusion
                (show (Except.ok (none : Option RegionQ) : Except String (Option RegionQ))
                  = .error e from h)
            | some childPos =>
              rw [hfind] at h
              dsimp only at h
              rw [if_neg (by omega)] at h
              cases hsubeq : grspSubRegion K (region.length / nGroups)
                  (coordList K nGroups childPos) region 0 0 with
              | error e1 =>
                cases hregion : region with
                | nil =>
                  rw [hregion] at hsubeq
                  exact Except.noConfusion
                    (show (Except.ok ([] : RegionQ) : Except String RegionQ)
                      = .error e1 from hsubeq)
                | cons r0 rs =>
                  have hlen : 1 ≤ region.length := by rw [hregion]; simp
                  have hdpg : 1 ≤ region.length / nGroups :=
                    Nat.div_pos (Nat.le_of_dvd (by omega) hdvd) (by omega)
                  refine grspSubRegion_no_error K (region.length / nGroups)
                    (coordList K nGroups childPos) hdpg region 0 0 0 (by simp) hdpg
                    ?_ e1 hsubeq
                  rw [coordList_length]
                  rw [Nat.mul_div_cancel' hdvd]
                  omega
              | ok sub =>
                rw [hsubeq] at h
                dsimp only at h
                have hdvd' : nGroups ∣ sub.length := by
                  rw [grspSubRegion_length K (region.length / nGroups)
                    (coordList K nGroups childPos) region 0 0 sub hsubeq]
                  exact hdvd
                cases tail with
                | nil =>
                  have htop : topID = a := by
                    have hh : some a = some topID := hlast
                    injection hh with hh
                    exact hh.symm
                  subst htop
                  refine ih sub [].dropLast _ hdvd' ?_ ?_ e h
                  · intro _ nd hnd
                    have hp := findIdx?_getD _ 0 _ _ hfind
                    rw [decide_eq_true_eq] at hp
                    rw [hnd] at hp
                    injection hp
                  · intro hne
                    exact absurd rfl hne
                | cons b t2 =>
                  refine ih sub ((a :: b :: t2).dropLast) _ hdvd' ?_ ?_ e h
                  · intro hps
                    exact absurd hps (by simp)
                  · intro _
                    rfl

/-- `std::map::at` carries exactly one failure. -/
lemma mapAt_error {m : List (ℤ × ℕ)} {k : ℤ} {e : String}
    (h : mapAt m k = .error e) : e = "map::at: out_of_range" := by
  unfold mapAt at h
  cases hl : m.lookup k with
  | some v => rw [hl] at h; exact absurd h (by simp)
  | none =>
    rw [hl] at h
    injection h with h
    exact h.symm

/-- Consistency of `nodeMap` with the arena: every mapped index
denotes a node carrying the mapped ID. -/
def MapConsistent (t : THTreeM) : Prop :=
  ∀ ID idx, t.nodeMap.lookup ID = some idx →
    ∃ nd, t.nodes.get? idx = some nd ∧ nd.ID = ID

lemma lookup_append_single (m : List (ℤ × ℕ)) (k : ℤ) (v : ℕ) (ID : ℤ) :
    (m ++ [(k, v)]).lookup ID =
      match m.lookup ID with
      | some w => some w
      | none => if ID = k then some v else none := by
  induction m with
  | nil =>
    simp only [List.nil_append, List.lookup]
    cases hbeq : ID == k with
    | true =>
      rw [if_pos (beq_iff_eq.mp hbeq)]
    | false =>
      rw [if_neg (by simpa using (beq_eq_false_iff_ne.mp hbeq))]
  | cons kv rest ih =>
    obtain ⟨k1, v1⟩ := kv
    simp only [List.cons_append, List.lookup]
    cases hbeq : ID == k1 with
    | true => rfl
    | false => exact ih

lemma thtreeNew_mapc {limitSize : ℤ} {t : THTreeM}
    (h : thtreeNew limitSize = .ok t) : MapConsistent t := by
  unfold thtreeNew at h
  split at h
  · exact absurd h (by simp)
  · injection h with h
    subst h
    intro ID idx hlk
    exact absurd hlk (by simp [List.lookup])

lemma addRootNode_mapc {t t1 : THTreeM} {ID0 : ℤ} (hmc : MapConsistent t)
    (h : addRootNode t ID0 = .ok t1) : MapConsistent t1 := by
  unfold addRootNode at h
  split at h
  · exact absurd h (by simp)
  · split at h
    · exact absurd h (by simp)
    · next hnil =>
      rw [not_not] at hnil
      injection h with h
      subst h
      intro ID idx hlk
      dsimp only at hlk ⊢
      unfold mapInsert at hlk
      split at hlk
      · obtain ⟨nd, hnd, _⟩ := hmc ID idx hlk
        rw [hnil] at hnd
        exact absurd hnd (by simp)
      · rw [lookup_append_single] at hlk
        cases hl : t.nodeMap.lookup ID with
        | some w =>
          rw [hl] at hlk
          dsimp only at hlk
          injection hlk with hlk
          subst hlk
          obtain ⟨nd, hnd, _⟩ := hmc ID w hl
          rw [hnil] at hnd
          exact absurd hnd (by simp)
        | none =>
          rw [hl] at hlk
          dsimp only at hlk
          split at hlk
          · next heq =>
            injection hlk with hlk
            subst hlk
            exact ⟨⟨ID0, none, 1⟩, rfl, heq.symm⟩
          · exact Option.noConfusion hlk

lemma addNode_mapc {t t1 : THTreeM} {ID0 parentID : ℤ} (hmc : MapConsistent t)
    (h : addNode t ID0 parentID = .ok t1) : MapConsistent t1 := by
  unfold addNode at h
  split at h
  · exact absurd h (by simp)
  · split at h
    · exact absurd h (by simp)
    · cases hat : mapAt t.nodeMap parentID with
      | error e => rw [hat, except_bind_error] at h; exact absurd h (by simp)
      | ok pIdx =>
        rw [hat, except_bind_ok] at h
        injection h with h
        subst h
        intro ID idx hlk
        dsimp only at hlk ⊢
        unfold mapInsert at hlk
        split at hlk
        · obtain ⟨nd, hnd, hid⟩ := hmc ID idx hlk
          refine ⟨nd, ?_, hid⟩
          obtain ⟨hlt, _⟩ := List.get?_eq_some.mp hnd
          rw [List.get?_append hlt]
          exact hnd
        · rw [lookup_append_single] at hlk
          cases hl : t.nodeMap.lookup ID with
          | some w =>
            rw [hl] at hlk
            dsimp only at hlk
            injection hlk with hlk
            subst hlk
            obtain ⟨nd, hnd, hid⟩ := hmc ID w hl
            refine ⟨nd, ?_, hid⟩
            obtain ⟨hlt, _⟩ := List.get?_eq_some.mp hnd
            rw [List.get?_append hlt]
            exact hnd
          | none =>
            rw [hl] at hlk
            dsimp only at hlk
            split at hlk
            · next heq =>
              injection hlk with hlk
              subst hlk
              refine ⟨⟨ID0, some pIdx,
                ((t.nodes.get? pIdx).map TNodeM.L).getD 0 + 1⟩, ?_, heq.symm⟩
              rw [List.get?_append_right (le_refl _)]
              simp
            · exact Option.noConfusion hlk

lemma foldTreeOps_mapc : ∀ (ops : List TreeOp) (t0 t : THTreeM), MapConsistent t0 →
    ops.foldlM applyTreeOp t0 = .ok t → MapConsistent t := by
  intro ops
  induction ops with
  | nil =>
    intro t0 t h0 hfold
    simp only [List.foldlM_nil] at hfold
    injection hfold with hfold
    rw [← hfold]
    exact h0
  | cons op ops ih =>
    intro t0 t h0 hfold
    simp only [List.foldlM_cons] at hfold
    cases hstep : applyTreeOp t0 op with
    | error e =>
      rw [hstep, except_bind_error] at hfold
      exact absurd hfold (by simp)
    | ok t1 =>
      rw [hstep, except_bind_ok] at hfold
      have h1 : MapConsistent t1 := by
        cases op with
        | root ID => exact addRootNode_mapc h0 hstep
        | node ID parentID => exact addNode_mapc h0 hstep
      exact ih t1 t h1 hfold

lemma buildTree_mapc {limitSize : ℤ} {ops : List TreeOp} {t : THTreeM}
    (h : buildTree limitSize ops = .ok t) : MapConsistent t := by
  unfold buildTree at h
  cases hnew : thtreeNew limitSize with
  | error e => rw [hnew, except_bind_error] at h; exact absurd h (by simp)
  | ok t0 =>
    rw [hnew, except_bind_ok] at h
    exact foldTreeOps_mapc ops t0 t (thtreeNew_mapc hnew) h

lemma lock_nodeMap (t : THTreeM) : (lock t).nodeMap = t.nodeMap := by
  unfold lock
  split <;> rfl

lemma lock_mapc {t : THTreeM} (hwf : TreeWF t) (hmc : MapConsistent t) :
    MapConsistent (lock t) := by
  intro ID idx hlk
  rw [lock_nodeMap] at hlk
  obtain ⟨nd, hnd, hid⟩ := hmc ID idx hlk
  rw [lock_get? t hwf idx, hnd]
  exact ⟨_, rfl, hid⟩

/-- C4 (amended).  For a locked tree built by `addRootNode`/`addNode`
in which every node has at most `K ^ nGroups` children (the `K`-ary
grid layout — without this bound a child at position `≥ K ^ nGroups`
receives a partition outside its dimension, see the counterexample), a
well-formed search space (partitions coinciding with dimensions,
`start ≤ end`), `K ≥ 1`, and a grid-consistent configuration
`nGroups ≥ 1` with `nGroups` dividing the dimension count (outside
that regime the source reads `coord[g]` past the `nGroups`-element
stack array or divides by zero, and the model returns the
undefined-behavior marker instead of a Region):
(a) whenever `apply` returns a Region, every Partition interval is
well-formed and contained in the interval of its Dimension, which is
the unchanged search-space dimension; (b) `apply` is idempotent — two
calls with the same `(S, tree, ID)` return Regions with equal
intervals; and (c) the call stays within defined behavior: the only
error it can produce is the `std::map::at` throw for an unknown ID,
never the undefined-behavior marker. -/
theorem grsp_apply_contained_and_idempotent {limitSize : ℤ}
    {ops : List TreeOp} {t : THTreeM} (nGroups K : ℕ) (S : RegionQ) (ID : ℤ)
    (hbuild : buildTree limitSize ops = .ok t)
    (hn : 1 ≤ nGroups) (hK : 1 ≤ K)
    (hdvd : nGroups ∣ S.length)
    (hfan : ∀ i, (childrenIdx (lock t) i).length ≤ K ^ nGroups)
    (hS : ∀ rd ∈ S, rd.part = rd.dim ∧ rd.dim.startPoint ≤ rd.dim.endPoint) :
    (∀ R, grspApply (lock t) nGroups K S ID = .ok (some R) →
      R.length = S.length ∧
      ∀ k rd srd, R.get? k = some rd → S.get? k = some srd →
        rd.dim = srd.dim ∧ srd.dim.startPoint ≤ rd.part.startPoint ∧
        rd.part.startPoint ≤ rd.part.endPoint ∧
        rd.part.endPoint ≤ srd.dim.endPoint) ∧
    (∀ R1 R2, grspApply (lock t) nGroups K S ID = .ok (some R1) →
      grspApply (lock t) nGroups K S ID = .ok (some R2) → R1 = R2) ∧
    (∀ e, grspApply (lock t) nGroups K S ID = .error e →
      e = "map::at: out_of_range") := by
  have hwf := buildTree_wf hbuild
  have hmcl : MapConsistent (lock t) := lock_mapc hwf (buildTree_mapc hbuild)
  refine ⟨?_, ?_, ?_⟩
  · intro R hR
    have hinvS : RegionInv S S := by
      refine ⟨rfl, ?_⟩
      intro k rd srd hget hS1
      rw [hget] at hS1
      injection hS1 with hS1
      subst hS1
      obtain ⟨hpart, hwfd⟩ := hS rd (List.get?_mem hget)
      rw [hpart]
      exact ⟨rfl, le_refl _, hwfd, le_refl _⟩
    unfold grspApply at hR
    cases hidx : getNode (lock t) ID with
    | error e => rw [hidx, except_bind_error] at hR; exact absurd hR (by simp)
    | ok idx =>
      rw [hidx, except_bind_ok] at hR
      cases hnd : (lock t).nodes.get? idx with
      | none =>
        rw [hnd] at hR
        have hR1 : (Except.ok (none : Option RegionQ) : Except String (Option RegionQ))
            = .ok (some R) := hR
        injection hR1 with hR1
        exact Option.noConfusion hR1
      | some node =>
        rw [hnd] at hR
        dsimp only at hR
        exact internalLoop_inv (lock t) nGroups K S hK hfan _ S _ 0 ID R hinvS hR
  · intro R1 R2 h1 h2
    rw [h1] at h2
    injection h2 with h2
    injection h2
  · intro e he
    unfold grspApply at he
    cases hgn : getNode (lock t) ID with
    | error e0 =>
      rw [hgn, except_bind_error] at he
      injection he with he0
      rw [← he0]
      exact mapAt_error hgn
    | ok idx =>
      rw [hgn, except_bind_ok] at he
      cases hnd : (lock t).nodes.get? idx with
      | none =>
        rw [hnd] at he
        exact Except.noConfusion
          (show (Except.ok (none : Option RegionQ) : Except String (Option RegionQ))
            = .error e from he)
      | some node =>
        rw [hnd] at he
        dsimp only at he
        have hlk : (lock t).nodeMap.lookup ID = some idx := by
          unfold getNode mapAt at hgn
          cases hl : (lock t).nodeMap.lookup ID with
          | none => rw [hl] at hgn; exact absurd hgn (by simp)
          | some v =>
            rw [hl] at hgn
            injection hgn with hgn
            rw [hgn]
        obtain ⟨nd, hnd1, hid⟩ := hmcl ID idx hlk
        rw [hnd] at hnd1
        injection hnd1 with hnd1
        exact absurd he (internalLoop_no_ub (lock t) nGroups K hn ID _ S
          (node.ID :: ancestorIDs (lock t) (lock t).nodes.length idx) 0 hdvd
          (fun hc => absurd hc (List.cons_ne_nil _ _))
          (fun _ => by rw [show node.ID = ID from hnd1 ▸ hid]; rfl)
          e)

/-- The over-full fan-out tree of the C4 counterexample: root 0 with
four children (more than `K ^ nGroups = 2`). -/
def cexFanTree : THTreeM :=
  { limitSize := 5,
    nodes := [⟨0, none, 1⟩, ⟨1, some 0, 2⟩, ⟨2, some 0, 2⟩,
              ⟨3, some 0, 2⟩, ⟨4, some 0, 2⟩],
    LRoot := 2,
    nodeMap := [(0, 0), (1, 1), (2, 2), (3, 3), (4, 4)],
    locked := false }

/-- C4 (counterexample).  With `nGroups = 1`, `K = 2`, a locked tree
whose root has four children — which `apply` accepts without any
InvalidTopology check — and the one-dimensional search space `[0, 2]`,
the node at child position 3 decodes to coordinate `c = 3` and
receives the partition `[3, 2]`: its start point `3` lies outside the
dimension interval `[0, 2]`, refuting claim (a) as universally
quantified over locked trees. -/
theorem grsp_partition_outside_dimension :
    buildTree 5 [.root 0, .node 1 0, .node 2 0, .node 3 0, .node 4 0]
      = .ok cexFanTree ∧
    grspApply (lock cexFanTree) 1 2 [⟨⟨0, 2⟩, ⟨0, 2⟩⟩] 4
      = .ok (some [⟨⟨0, 2⟩, ⟨3, 2⟩⟩]) ∧
    ¬ ((0 : ℚ) ≤ 3 ∧ (3 : ℚ) ≤ 2) := by
  refine ⟨by rfl, ?_, ?_⟩
  · have hsub : grspSubRegion 2 1 [3] [⟨⟨0, 2⟩, ⟨0, 2⟩⟩] 0 0
        = .ok [⟨⟨0, 2⟩, ⟨3, 2⟩⟩] := by
      simp only [grspSubRegion, List.get?_cons_zero]
      norm_num
    calc grspApply (lock cexFanTree) 1 2 [⟨⟨0, 2⟩, ⟨0, 2⟩⟩] 4
        = (match grspSubRegion 2 1 [3] [⟨⟨0, 2⟩, ⟨0, 2⟩⟩] 0 0 with
           | .error e => .error e
           | .ok sub => internalLoop (lock cexFanTree) 1 2 1 sub [] 4 4) := rfl
      _ = internalLoop (lock cexFanTree) 1 2 1 [⟨⟨0, 2⟩, ⟨3, 2⟩⟩] [] 4 4 := by
          rw [hsub]
      _ = .ok (some [⟨⟨0, 2⟩, ⟨3, 2⟩⟩]) := rfl
  · intro hcon
    have := hcon.2
    norm_num at this

/-- Witness for C4 (amended): the three-node tree obeys the fan-out
bound `K ^ nGroups = 4 ^ 1`; the region returned for node 2 on the
search space `[0, 2]` is `[1/2, 1]`, well-formed and contained in the
unchanged dimension interval. -/
theorem grsp_apply_contained_witness :
    ({ dim := ⟨0, 2⟩, part := ⟨1/2, 1⟩ } : RegionDim).dim = (⟨0, 2⟩ : Interval) ∧
    ((0 : ℚ) ≤ 1/2 ∧ (1/2 : ℚ) ≤ 1 ∧ (1 : ℚ) ≤ 2) := by
  have hb : buildTree 3 [.root 0, .node 1 0, .node 2 0] = .ok gridTree3 := by rfl
  have happly : grspApply (lock gridTree3) 1 4 [⟨⟨0, 2⟩, ⟨0, 2⟩⟩] 2
      = .ok (some [⟨⟨0, 2⟩, ⟨1/2, 1⟩⟩]) := by
    have hsub : grspSubRegion 4 1 [1] [⟨⟨0, 2⟩, ⟨0, 2⟩⟩] 0 0
        = .ok [⟨⟨0, 2⟩, ⟨1/2, 1⟩⟩] := by
      simp only [grspSubRegion, List.get?_cons_zero]
      norm_num
    calc grspApply (lock gridTree3) 1 4 [⟨⟨0, 2⟩, ⟨0, 2⟩⟩] 2
        = (match grspSubRegion 4 1 [1] [⟨⟨0, 2⟩, ⟨0, 2⟩⟩] 0 0 with
           | .error e => .error e
           | .ok sub => internalLoop (lock gridTree3) 1 4 1 sub [] 2 2) := rfl
      _ = internalLoop (lock gridTree3) 1 4 1 [⟨⟨0, 2⟩, ⟨1/2, 1⟩⟩] [] 2 2 := by
          rw [hsub]
      _ = .ok (some [⟨⟨0, 2⟩, ⟨1/2, 1⟩⟩]) := rfl
  have h := (grsp_apply_contained_and_idempotent 1 4 [⟨⟨0, 2⟩, ⟨0, 2⟩⟩] 2 hb
      (by decide) (by decide)
      (one_dvd _)
      (fun i => le_trans (List.length_filter_le _ _) (by decide))
      (by
        intro rd hrd
        simp only [List.mem_singleton] at hrd
        rw [hrd]
        exact ⟨rfl, by norm_num⟩)).1
    [⟨⟨0, 2⟩, ⟨1/2, 1⟩⟩] happly
  obtain ⟨hlen, hcont⟩ := h
  have h0 := hcont 0 ⟨⟨0, 2⟩, ⟨1/2, 1⟩⟩ ⟨⟨0, 2⟩, ⟨0, 2⟩⟩ rfl rfl
  exact ⟨h0.1, h0.2.1, h0.2.2.1, h0.2.2.2⟩

/-! ## Unknown-ID behaviour of the tree accessors (THTree.h unit)

`getNode(ID)` is a bare `nodeMap.at(ID)`: for an ID never added to the
tree, `std::map::at` throws `std::out_of_range` — `getNode` never
returns `NULL`.  Consequently the `node != NULL` tests in
`getLevel`/`getParent` and the `node == NULL` guard at the start of
`GroupRegionSelectionPolicy::apply` are dead: whenever `getNode`
returns at all, the mapped arena index denotes a real node. -/

/-- The ID argument of a tree-construction call. -/
def opID : TreeOp → ℤ
  | .root ID => ID
  | .node ID _ => ID

lemma lookup_append_single_none {m : List (ℤ × ℕ)} {ID k : ℤ} {v : ℕ}
    (h : m.lookup ID = none) (hne : k ≠ ID) :
    (m ++ [(k, v)]).lookup ID = none := by
  induction m with
  | nil =>
    simp only [List.nil_append, List.lookup]
    cases hbeq : ID == k with
    | true => exact absurd (beq_iff_eq.mp hbeq).symm hne
    | false => rfl
  | cons kv rest ih =>
    obtain ⟨k', v'⟩ := kv
    simp only [List.cons_append, List.lookup] at h ⊢
    cases hbeq : ID == k' with
    | true =>
      rw [hbeq] at h
      exact Option.noConfusion (show some v' = none from h)
    | false =>
      rw [hbeq] at h
      exact ih h

lemma mapInsert_lookup_none {m : List (ℤ × ℕ)} {ID k : ℤ} {v : ℕ}
    (h : m.lookup ID = none) (hne : k ≠ ID) :
    (mapInsert m k v).lookup ID = none := by
  unfold mapInsert
  split
  · exact h
  · exact lookup_append_single_none h hne

lemma applyTreeOp_lookup_none {t t' : THTreeM} {op : TreeOp} {ID : ℤ}
    (h : t.nodeMap.lookup ID = none) (hne : opID op ≠ ID)
    (happ : applyTreeOp t op = .ok t') :
    t'.nodeMap.lookup ID = none := by
  cases op with
  | root ID' =>
    have happ' : addRootNode t ID' = .ok t' := happ
    unfold addRootNode at happ'
    split at happ'
    · exact absurd happ' (by simp)
    · split at happ'
      · exact absurd happ' (by simp)
      · injection happ' with happ'
        rw [← happ']
        exact mapInsert_lookup_none h hne
  | node ID' parentID =>
    have happ' : addNode t ID' parentID = .ok t' := happ
    unfold addNode at happ'
    split at happ'
    · exact absurd happ' (by simp)
    · split at happ'
      · exact absurd happ' (by simp)
      · cases hat : mapAt t.nodeMap parentID with
        | error e => rw [hat, except_bind_error] at happ'; exact absurd happ' (by simp)
        | ok pIdx =>
          rw [hat, except_bind_ok] at happ'
          injection happ' with happ'
          rw [← happ']
          exact mapInsert_lookup_none h hne

lemma foldTreeOps_lookup_none {ID : ℤ} : ∀ (ops : List TreeOp) (t0 t : THTreeM),
    t0.nodeMap.lookup ID = none → (∀ op ∈ ops, opID op ≠ ID) →
    ops.foldlM applyTreeOp t0 = .ok t → t.nodeMap.lookup ID = none := by
  intro ops
  induction ops with
  | nil =>
    intro t0 t h _ hfold
    simp only [List.foldlM_nil] at hfold
    injection hfold with hfold
    rw [← hfold]
    exact h
  | cons op rest ih =>
    intro t0 t h hops hfold
    simp only [List.foldlM_cons] at hfold
    cases hstep : applyTreeOp t0 op with
    | error e =>
      rw [hstep, except_bind_error] at hfold
      exact absurd hfold (by simp)
    | ok t1 =>
      rw [hstep, except_bind_ok] at hfold
      exact ih t1 t
        (applyTreeOp_lookup_none h (hops op (List.mem_cons_self _ _)) hstep)
        (fun o ho => hops o (List.mem_cons_of_mem _ ho)) hfold

/-- An ID that is the argument of no `addRootNode`/`addNode` call is
absent from the finished tree's `nodeMap`. -/
lemma buildTree_lookup_none {limitSize : ℤ} {ops : List TreeOp} {t : THTreeM}
    {ID : ℤ} (hbuild : buildTree limitSize ops = .ok t)
    (hID : ∀ op ∈ ops, opID op ≠ ID) :
    t.nodeMap.lookup ID = none := by
  unfold buildTree at hbuild
  cases hnew : thtreeNew limitSize with
  | error e => rw [hnew, except_bind_error] at hbuild; exact absurd hbuild (by simp)
  | ok t0 =>
    rw [hnew, except_bind_ok] at hbuild
    have h0 : t0.nodeMap.lookup ID = none := by
      unfold thtreeNew at hnew
      split at hnew
      · exact absurd hnew (by simp)
      · injection hnew with hnew
        rw [← hnew]
        rfl
    exact foldTreeOps_lookup_none ops t0 t h0 hID hbuild

/-- C10.  For every tree built by `addRootNode`/`addNode` and every ID
that was never added: `getNode(ID)` raises `std::map::at`'s
out-of-range error instead of returning `NULL`, and so do
`getLevel(ID)`, `getParent(ID)` and (through the same `getNode` on the
locked tree, whose `nodeMap` locking does not touch)
`GroupRegionSelectionPolicy::apply(S, tree, ID)` for every policy
configuration and search space.  Moreover the `NULL`-result branches
are dead: whenever `getNode` does return an index — on the built tree
or on its locked form — that index denotes a real node of the arena,
so the `node != NULL` tests in `getLevel`/`getParent` and the
`node == NULL` guard of `apply` can never fire. -/
theorem thtree_unknown_id_out_of_range {limitSize : ℤ} {ops : List TreeOp}
    {t : THTreeM} (ID : ℤ)
    (hbuild : buildTree limitSize ops = .ok t)
    (hID : ∀ op ∈ ops, opID op ≠ ID) :
    getNode t ID = .error "map::at: out_of_range" ∧
    getLevel t ID = .error "map::at: out_of_range" ∧
    getParent t ID = .error "map::at: out_of_range" ∧
    (∀ nGroups K S, grspApply (lock t) nGroups K S ID
      = .error "map::at: out_of_range") ∧
    (∀ ID' idx, getNode t ID' = .ok idx → ∃ nd, t.nodes.get? idx = some nd) ∧
    (∀ ID' idx, getNode (lock t) ID' = .ok idx →
      ∃ nd, (lock t).nodes.get? idx = some nd) := by
  have hwf := buildTree_wf hbuild
  have hlook : t.nodeMap.lookup ID = none := buildTree_lookup_none hbuild hID
  have hgn : getNode t ID = .error "map::at: out_of_range" := by
    unfold getNode mapAt
    rw [hlook]
  have hgnl : getNode (lock t) ID = .error "map::at: out_of_range" := by
    unfold getNode
    rw [lock_nodeMap]
    exact hgn
  have hdead : ∀ ID' idx, getNode t ID' = .ok idx →
      ∃ nd, t.nodes.get? idx = some nd := by
    intro ID' idx hok
    unfold getNode mapAt at hok
    cases hlk : t.nodeMap.lookup ID' with
    | none => rw [hlk] at hok; exact absurd hok (by simp)
    | some v =>
      rw [hlk] at hok
      injection hok with hok
      have hlt : idx < t.nodes.length := by
        rw [← hok]
        exact hwf.map_lt (ID', v) (lookup_mem' hlk)
      rw [List.get?_eq_get hlt]
      exact ⟨_, rfl⟩
  refine ⟨hgn, ?_, ?_, ?_, hdead, ?_⟩
  · unfold getLevel
    rw [hgn, except_bind_error]
  · unfold getParent
    rw [hgn, except_bind_error]
  · intro nGroups K S
    unfold grspApply
    rw [hgnl, except_bind_error]
  · intro ID' idx hok
    have hok' : getNode t ID' = .ok idx := by
      unfold getNode at hok ⊢
      rw [lock_nodeMap] at hok
      exact hok
    obtain ⟨nd, hnd⟩ := hdead ID' idx hok'
    rw [lock_get? t hwf idx, hnd]
    exact ⟨_, rfl⟩

/-- Witness for C10: on the three-node tree, the never-added ID 7 makes
every accessor raise the out-of-range error, and the index `getNode`
returns for the known ID 1 denotes a real arena node. -/
theorem thtree_unknown_id_out_of_range_witness :
    getNode gridTree3 7 = .error "map::at: out_of_range" ∧
    getLevel gridTree3 7 = .error "map::at: out_of_range" ∧
    getParent gridTree3 7 = .error "map::at: out_of_range" ∧
    grspApply (lock gridTree3) 1 2 [] 7 = .error "map::at: out_of_range" ∧
    (∃ nd, gridTree3.nodes.get? 1 = some nd) := by
  have hb : buildTree 3 [.root 0, .node 1 0, .node 2 0] = .ok gridTree3 := by rfl
  have h := thtree_unknown_id_out_of_range 7 hb (by decide)
  exact ⟨h.1, h.2.1, h.2.2.1, h.2.2.2.1 1 2 [],
    h.2.2.2.2.1 1 1 (by rfl)⟩

/-! ## THImpl::getBestSolution / getBestList (THBuilder.h unit)

```cpp
Solution* getBestSolution(){
    if(executed && generalBestCopy == NULL){
        generalBestCopy = new Solution(generalBest);
    }
    return generalBestCopy;
}
```
(lines 1912-1917; `getBestList` at 1927-1932 is identical with
`bestListCopy`/`bestList`).  The heap is modelled by an allocation
counter handing out fresh addresses and address-indexed stores; the
two accessors are state transitions returning the C++ pointer as an
`Option ℕ` address. -/

/-- The observable state of a `THImpl` for its two result accessors:
an allocation counter, the stores of heap-allocated `Solution` /
`BestList` copies, the `executed` flag set at the end of `run()`, the
current `generalBest` / `bestList` values, and the two cached-copy
pointer members (initially `NULL`). -/
structure THView (σ β : Type) where
  heapNext : ℕ
  solHeap : List (ℕ × σ)
  listHeap : List (ℕ × β)
  executed : Bool
  generalBest : σ
  bestList : β
  generalBestCopy : Option ℕ
  bestListCopy : Option ℕ
  deriving DecidableEq

/-- `THImpl::getBestSolution()` (THBuilder.h 1912-1917). -/
def getBestSolution {σ β : Type} (s : THView σ β) : Option ℕ × THView σ β :=
  if s.executed = true ∧ s.generalBestCopy = none then
    let s' := { s with heapNext := s.heapNext + 1,
                       solHeap := s.solHeap ++ [(s.heapNext, s.generalBest)],
                       generalBestCopy := some s.heapNext }
    (s'.generalBestCopy, s')
  else (s.generalBestCopy, s)

/-- `THImpl::getBestList()` (THBuilder.h 1927-1932). -/
def getBestList {σ β : Type} (s : THView σ β) : Option ℕ × THView σ β :=
  if s.executed = true ∧ s.bestListCopy = none then
    let s' := { s with heapNext := s.heapNext + 1,
                       listHeap := s.listHeap ++ [(s.heapNext, s.bestList)],
                       bestListCopy := some s.heapNext }
    (s'.bestListCopy, s')
  else (s.bestListCopy, s)

lemma lookup_append_fresh {σ : Type} : ∀ (l : List (ℕ × σ)) (k : ℕ) (v : σ),
    (∀ x ∈ l, x.1 ≠ k) → (l ++ [(k, v)]).lookup k = some v := by
  intro l k v
  induction l with
  | nil => intro; simp [List.lookup]
  | cons x xs ih =>
    intro h
    obtain ⟨k', v'⟩ := x
    simp only [List.cons_append, List.lookup]
    cases hbeq : k == k' with
    | true =>
      exact absurd (beq_iff_eq.mp hbeq).symm (h (k', v') (List.mem_cons_self _ _))
    | false =>
      exact ih (fun x hx => h x (List.mem_cons_of_mem _ hx))

/-- The state after the first `getBestSolution()` call on
[[cexView]]. -/
def cexView : THView ℤ (List ℤ) :=
  ⟨0, [], [], true, 42, [7], none, none⟩

def cexView1 : THView ℤ (List ℤ) :=
  ⟨1, [(0, 42)], [], true, 42, [7], some 0, none⟩

def cexView2 : THView ℤ (List ℤ) :=
  ⟨2, [(0, 42)], [(1, [7])], true, 42, [7], some 0, some 1⟩

/-- C9 (counterexample).  After `run()`, the first
`getBestSolution()` call allocates the copy at address 0 and caches
the pointer in the member `generalBestCopy`; the second call takes the
`else` path, allocates nothing and returns the *same* address 0 with
the state unchanged — the two calls do not hand the caller distinct
freshly allocated objects (two callers "owning" their result would
delete the same object twice).  `getBestList()` behaves the same with
`bestListCopy`. -/
theorem getBest_second_call_returns_same_object :
    getBestSolution cexView = (some 0, cexView1) ∧
    getBestSolution cexView1 = (some 0, cexView1) ∧
    getBestList cexView1 = (some 1, cexView2) ∧
    getBestList cexView2 = (some 1, cexView2) := by
  refine ⟨?_, ?_, ?_, ?_⟩ <;> decide

/-- C9 (amended).  Provided every allocated address is below the
allocation counter: before `run()` completes (`executed = false`) both
accessors return the cached member unchanged — initially `NULL` — and
allocate nothing; the first call after `run()` heap-allocates a fresh
address holding a copy of `generalBest` (resp. `bestList`) and caches
it; and every call that finds a cached pointer — including every call
after the first — returns that same cached address with the state
untouched, so only the first call hands out a new object and repeated
calls share it. -/
theorem getBest_first_call_copies_then_caches {σ β : Type} (s : THView σ β)
    (hfreshS : ∀ x ∈ s.solHeap, x.1 < s.heapNext)
    (hfreshL : ∀ x ∈ s.listHeap, x.1 < s.heapNext) :
    (s.executed = false → getBestSolution s = (s.generalBestCopy, s) ∧
      getBestList s = (s.bestListCopy, s)) ∧
    (s.executed = true → s.generalBestCopy = none →
      ∃ s₁, getBestSolution s = (some s.heapNext, s₁) ∧
        s.heapNext ∉ s.solHeap.map Prod.fst ∧
        s₁.solHeap.lookup s.heapNext = some s.generalBest ∧
        s₁.generalBestCopy = some s.heapNext ∧
        getBestSolution s₁ = (some s.heapNext, s₁)) ∧
    (s.executed = true → s.bestListCopy = none →
      ∃ s₁, getBestList s = (some s.heapNext, s₁) ∧
        s.heapNext ∉ s.listHeap.map Prod.fst ∧
        s₁.listHeap.lookup s.heapNext = some s.bestList ∧
        s₁.bestListCopy = some s.heapNext ∧
        getBestList s₁ = (some s.heapNext, s₁)) ∧
    (∀ a, s.generalBestCopy = some a → getBestSolution s = (some a, s)) ∧
    (∀ a, s.bestListCopy = some a → getBestList s = (some a, s)) := by
  refine ⟨?_, ?_, ?_, ?_, ?_⟩
  · intro hex
    constructor
    · unfold getBestSolution
      rw [if_neg (by simp [hex])]
    · unfold getBestList
      rw [if_neg (by simp [hex])]
  · intro hex hnone
    refine ⟨{ s with
      heapNext := s.heapNext + 1,
      solHeap := s.solHeap ++ [(s.heapNext, s.generalBest)],
      generalBestCopy := some s.heapNext }, ?_, ?_, ?_, ?_, ?_⟩
    · unfold getBestSolution
      rw [if_pos ⟨hex, hnone⟩]
    · intro hmem
      simp only [List.mem_map] at hmem
      obtain ⟨x, hx, hxeq⟩ := hmem
      exact absurd hxeq (Nat.ne_of_lt (hfreshS x hx))
    · exact lookup_append_fresh s.solHeap s.heapNext s.generalBest
        (fun x hx => Nat.ne_of_lt (hfreshS x hx))
    · rfl
    · unfold getBestSolution
      rw [if_neg (by simp)]
  · intro hex hnone
    refine ⟨{ s with
      heapNext := s.heapNext + 1,
      listHeap := s.listHeap ++ [(s.heapNext, s.bestList)],
      bestListCopy := some s.heapNext }, ?_, ?_, ?_, ?_, ?_⟩
    · unfold getBestList
      rw [if_pos ⟨hex, hnone⟩]
    · intro hmem
      simp only [List.mem_map] at hmem
      obtain ⟨x, hx, hxeq⟩ := hmem
      exact absurd hxeq (Nat.ne_of_lt (hfreshL x hx))
    · exact lookup_append_fresh s.listHeap s.heapNext s.bestList
        (fun x hx => Nat.ne_of_lt (hfreshL x hx))
    · rfl
    · unfold getBestList
      rw [if_neg (by simp)]
  · intro a ha
    unfold getBestSolution
    rw [if_neg (by simp [ha]), ha]
  · intro a ha
    unfold getBestList
    rw [if_neg (by simp [ha]), ha]

/-- Witness for C9 (amended): on the fresh post-`run()` state, the
first call allocates address 0 holding the general best `42`, and the
second call returns the same address 0 without touching the state. -/
theorem getBest_first_call_copies_then_caches_witness :
    ∃ s₁ : THView ℤ (List ℤ),
      getBestSolution cexView = (some 0, s₁) ∧
      (s₁.solHeap.lookup 0 = some 42) ∧
      getBestSolution s₁ = (some 0, s₁) := by
  have h := (getBest_first_call_copies_then_caches cexView
      (by decide) (by decide)).2.1 rfl rfl
  obtain ⟨s₁, h1, _, h3, _, h5⟩ := h
  exact ⟨s₁, h1, h3, h5⟩

end TreasureHunt
